import Mathlib

/-!
Shallow embedding of the two core scripts of the repository
`adaptive-force-matching-tools`:

  * `src/scr_ref/xyz_add_gen_msite.py`  — M-site insertion tool
  * `src/scr_ref/xyz_fix_linenu.py`     — frame line-count normalizer

A text line is modelled as a `List Char` (`Line`), so that the whitespace
tokenizer (`str.split()`), string stripping and decimal parsing can be
defined as ordinary recursive functions that are easy to reason about.
Python `float` values are modelled as rationals (`ℚ`); fixed-width
formatting of the output record is abstracted into a structured record
(`MsiteRecord`) that keeps the numeric fields exact.  Fallible code
(the uncaught `IndexError` in `process_molecule`) is modelled with
`Except`.
-/

deriving instance DecidableEq for Except

attribute [local semireducible] Rat.add Rat.mul Rat.sub Rat.inv

/-- A text line, modelled as its list of characters. -/
abbrev Line := List Char

/-- Whitespace characters recognised by Python's `str.split()` (the forms
occurring in this data format). -/
def isWS (c : Char) : Bool := c = ' ' ∨ c = '\t' ∨ c = '\n' ∨ c = '\r'

/-- Helper for `splitWS`: `acc` holds the characters of the current word,
in reverse order. -/
def splitWSAux : List Char → List Char → List (List Char)
  | [], acc => if acc = [] then [] else [acc.reverse]
  | c :: rest, acc =>
    if isWS c then
      if acc = [] then splitWSAux rest []
      else acc.reverse :: splitWSAux rest []
    else splitWSAux rest (c :: acc)

/-- Python `line.split()`: split on runs of whitespace, dropping empty
tokens (leading/trailing whitespace yields no token). -/
def splitWS (l : Line) : List (List Char) := splitWSAux l []

/-- Python `line.strip()` restricted to the whitespace characters of
`isWS`. -/
def stripWS (l : Line) : Line :=
  ((l.dropWhile isWS).reverse.dropWhile isWS).reverse

/-- Numeric value of a decimal digit character, `none` otherwise. -/
def digitVal (c : Char) : Option ℕ :=
  if '0' ≤ c ∧ c ≤ '9' then some (c.toNat - 48) else none

/-- Helper: read a run of decimal digits, failing on any non-digit. -/
def parseDigitsAux (acc : ℕ) : List Char → Option ℕ
  | [] => some acc
  | c :: rest =>
    match digitVal c with
    | some d => parseDigitsAux (acc * 10 + d) rest
    | none => none

/-- Parse a non-empty all-digit token as a natural number. -/
def parseDigits : List Char → Option ℕ
  | [] => none
  | c :: rest => parseDigitsAux 0 (c :: rest)

/-- Python `int(token)` for a whitespace-free token: optional sign
followed by a non-empty digit run. -/
def parseInt : List Char → Option ℤ
  | [] => none
  | c :: rest =>
    if c = '+' then (parseDigits rest).map (fun n => (n : ℤ))
    else if c = '-' then (parseDigits rest).map (fun n => -(n : ℤ))
    else (parseDigits (c :: rest)).map (fun n => (n : ℤ))

/-- Split off a maximal leading run of digits, returning their values and
the remaining characters. -/
def takeDigits : List Char → List ℕ × List Char
  | [] => ([], [])
  | c :: rest =>
    match digitVal c with
    | some d =>
      let p := takeDigits rest
      (d :: p.1, p.2)
    | none => ([], c :: rest)

/-- Value of a digit-value list read as a decimal numeral. -/
def digitsToNat (ds : List ℕ) : ℕ := ds.foldl (fun a d => a * 10 + d) 0

/-- Python `float(token)`, unsigned part: `digits [. digits] [e sign
digits]`, with at least one digit in the mantissa.  (The special forms
`inf`/`nan` and underscore separators are outside the data handled by
these scripts and are not modelled.) -/
def parseFloatUnsigned (l : List Char) : Option ℚ :=
  let ip := takeDigits l
  let fp : List ℕ × List Char :=
    match ip.2 with
    | '.' :: r => takeDigits r
    | _ => ([], ip.2)
  if ip.1 = [] ∧ fp.1 = [] then none
  else
    let base : ℚ := (digitsToNat ip.1 : ℚ) + (digitsToNat fp.1 : ℚ) / (10 ^ fp.1.length : ℚ)
    match fp.2 with
    | [] => some base
    | e :: r3 =>
      if e = 'e' ∨ e = 'E' then
        match r3 with
        | '+' :: r4 => (parseDigits r4).map (fun n => base * 10 ^ n)
        | '-' :: r4 => (parseDigits r4).map (fun n => base / 10 ^ n)
        | r4 => (parseDigits r4).map (fun n => base * 10 ^ n)
      else none

/-- Python `float(token)`: optional sign then unsigned float. -/
def parseFloat : List Char → Option ℚ
  | [] => none
  | c :: rest =>
    if c = '+' then parseFloatUnsigned rest
    else if c = '-' then (parseFloatUnsigned rest).map Neg.neg
    else parseFloatUnsigned (c :: rest)

/-- Decimal digit character of a value `< 10`. -/
def digitChar (k : ℕ) : Char := Char.ofNat (48 + k)

/-- Helper for `natDigits`; the first argument is fuel bounding the
recursion depth (any fuel `≥ n` is enough). -/
def natDigitsAux : ℕ → ℕ → List Char
  | 0, n => [digitChar n]
  | fuel + 1, n =>
    if n < 10 then [digitChar n]
    else natDigitsAux fuel (n / 10) ++ [digitChar (n % 10)]

/-- Decimal rendering of a natural number (the characters of Python's
`f"{n}"` for a non-negative count). -/
def natDigits (n : ℕ) : List Char := natDigitsAux n n

/-- Count of occurrences of `x` in `l`. -/
def countOcc {α : Type} [DecidableEq α] (l : List α) (x : α) : ℕ :=
  (l.filter (fun a => a = x)).length

/-- Python `list.insert(i, a)`: insert before position `i`, clamping to
the end when `i` exceeds the length. -/
def pyInsert {α : Type} (xs : List α) (i : ℕ) (a : α) : List α :=
  xs.take i ++ a :: xs.drop i

/-! ## `xyz_fix_linenu.py` — frame line-count normalizer -/

/-- `is_line_count`: the stripped line splits into exactly one token and
that token parses as an integer. -/
def isLineCount (l : Line) : Bool :=
  match splitWS (stripWS l) with
  | [p] => (parseInt p).isSome
  | _ => false

/-- One frame as assembled by the `while` loop of `main` in
`xyz_fix_linenu.py`: the original count line (the code stores its index
into the line list; we keep the line itself, which is what that index
denotes and is likewise unused by the output), the comment line, and the
body lines collected up to the next count line or end of input. -/
structure RefFrame where
  countLine : Line
  comment : Line
  body : List Line
deriving DecidableEq, Repr

/-- Position of the frame-assembly loop of `main` in `xyz_fix_linenu.py`
between two lines: either it is looking for the next count line, or it
has just read a count line and expects the comment next, or it is
collecting body lines of the frame opened by `countLine`/`comment`. -/
inductive NormSt where
  | seeking
  | gotCount (countLine : Line)
  | accum (countLine comment : Line) (body : List Line)

/-- The frame-assembly loop of `main` in `xyz_fix_linenu.py`, one input
line per step: skip lines until a count line; take the next line as
comment; collect body lines while they are not count lines; repeat.  A
count line at end of input (no following line) produces no frame. -/
def parseFramesAux : NormSt → List Line → List RefFrame
  | .seeking, [] => []
  | .gotCount _, [] => []
  | .accum cl cm body, [] => [⟨cl, cm, body⟩]
  | .seeking, l :: rest =>
    if isLineCount l then parseFramesAux (.gotCount l) rest
    else parseFramesAux .seeking rest
  | .gotCount cl, l :: rest => parseFramesAux (.accum cl l []) rest
  | .accum cl cm body, l :: rest =>
    if isLineCount l then ⟨cl, cm, body⟩ :: parseFramesAux (.gotCount l) rest
    else parseFramesAux (.accum cl cm (body ++ [l])) rest

/-- The frames assembled from an input line list. -/
def parseFrames (lines : List Line) : List RefFrame := parseFramesAux .seeking lines

/-- The output block written for one frame: the recomputed count
(`actual_count = len(frame_lines)`), the comment verbatim, then the body
verbatim. -/
def renderFixed (f : RefFrame) : List Line :=
  natDigits f.body.length :: f.comment :: f.body

/-- A frame rendered with its original count line (the shape of a frame
in the input stream). -/
def renderFrame (f : RefFrame) : List Line :=
  f.countLine :: f.comment :: f.body

/-- `main` of `xyz_fix_linenu.py` as a function from input lines to
output lines: assemble frames, then emit each frame with its actual body
length as the count. -/
def fixLinenu (lines : List Line) : List Line :=
  (parseFrames lines).flatMap renderFixed

/-! ## Support lemmas for the normalizer -/

theorem digitChar_bounds {k : ℕ} (hk : k < 10) :
    '0' ≤ digitChar k ∧ digitChar k ≤ '9' := by
  interval_cases k <;> exact ⟨by decide, by decide⟩

theorem natDigitsAux_all_digit : ∀ fuel n : ℕ, n ≤ fuel ∨ n < 10 →
    ∀ c ∈ natDigitsAux fuel n, '0' ≤ c ∧ c ≤ '9' := by
  intro fuel
  induction fuel with
  | zero =>
    intro n hn c hc
    have h10 : n < 10 := by
      rcases hn with h | h
      · omega
      · exact h
    simp only [natDigitsAux, List.mem_singleton] at hc
    exact hc ▸ digitChar_bounds h10
  | succ fuel ih =>
    intro n hn c hc
    by_cases h10 : n < 10
    · simp only [natDigitsAux, h10, if_true, List.mem_singleton] at hc
      exact hc ▸ digitChar_bounds h10
    · simp only [natDigitsAux, h10, if_false, List.mem_append, List.mem_singleton] at hc
      rcases hc with hc | hc
      · refine ih (n / 10) (Or.inl ?_) c hc
        have : n / 10 < n := Nat.div_lt_self (by omega) (by omega)
        rcases hn with h | h <;> omega
      · exact hc ▸ digitChar_bounds (Nat.mod_lt _ (by omega))

theorem natDigits_all_digit : ∀ n : ℕ, ∀ c ∈ natDigits n, '0' ≤ c ∧ c ≤ '9' :=
  fun n => natDigitsAux_all_digit n n (Or.inl le_rfl)

theorem natDigits_ne_nil (n : ℕ) : natDigits n ≠ [] := by
  unfold natDigits
  cases n with
  | zero => simp [natDigitsAux]
  | succ m => by_cases h : m + 1 < 10 <;> simp [natDigitsAux, h]

theorem digit_not_WS {c : Char} (h : '0' ≤ c ∧ c ≤ '9') : isWS c = false := by
  rcases h with ⟨h1, h2⟩
  simp only [isWS, decide_eq_false_iff_not]
  rintro (rfl | rfl | rfl | rfl) <;> revert h1 h2 <;> decide

theorem digit_digitVal {c : Char} (h : '0' ≤ c ∧ c ≤ '9') : (digitVal c).isSome := by
  simp [digitVal, h.1, h.2]

theorem dropWhile_eq_self_of_all {p : Char → Bool} {l : List Char}
    (h : ∀ c ∈ l, p c = false) : l.dropWhile p = l := by
  cases l with
  | nil => rfl
  | cons c rest => simp [List.dropWhile_cons, h c (by simp)]

theorem stripWS_eq_self_of_solid {l : Line} (h : ∀ c ∈ l, isWS c = false) :
    stripWS l = l := by
  unfold stripWS
  rw [dropWhile_eq_self_of_all h,
      dropWhile_eq_self_of_all (by intro c hc; exact h c (by simpa using hc)),
      List.reverse_reverse]

theorem splitWSAux_solid : ∀ l acc : List Char, (∀ c ∈ l, isWS c = false) →
    splitWSAux l acc = if acc = [] ∧ l = [] then [] else [acc.reverse ++ l] := by
  intro l
  induction l with
  | nil =>
    intro acc _
    by_cases h : acc = [] <;> simp [splitWSAux, h]
  | cons c rest ih =>
    intro acc hs
    have hc : isWS c = false := hs c (by simp)
    have hrest : ∀ x ∈ rest, isWS x = false := fun x hx => hs x (by simp [hx])
    simp only [splitWSAux, hc, Bool.false_eq_true, if_false, ih (c :: acc) hrest]
    simp

theorem splitWS_solid {l : Line} (h : ∀ c ∈ l, isWS c = false) (hne : l ≠ []) :
    splitWS l = [l] := by
  unfold splitWS
  rw [splitWSAux_solid l [] h]
  simp [hne]

theorem parseDigitsAux_isSome : ∀ (l : List Char) (acc : ℕ),
    (∀ c ∈ l, '0' ≤ c ∧ c ≤ '9') → (parseDigitsAux acc l).isSome := by
  intro l
  induction l with
  | nil => intro acc _; simp [parseDigitsAux]
  | cons c rest ih =>
    intro acc h
    have := digit_digitVal (h c (by simp))
    unfold parseDigitsAux
    cases hv : digitVal c with
    | none => rw [hv] at this; simp at this
    | some d => exact ih _ (fun x hx => h x (by simp [hx]))

theorem parseDigits_natDigits_isSome (n : ℕ) : (parseDigits (natDigits n)).isSome := by
  cases hd : natDigits n with
  | nil => exact absurd hd (natDigits_ne_nil n)
  | cons c rest =>
    unfold parseDigits
    exact parseDigitsAux_isSome _ _ (fun x hx => natDigits_all_digit n x (hd ▸ hx))

theorem isLineCount_natDigits (n : ℕ) : isLineCount (natDigits n) = true := by
  unfold isLineCount
  have hall : ∀ c ∈ natDigits n, isWS c = false :=
    fun c hc => digit_not_WS (natDigits_all_digit n c hc)
  rw [stripWS_eq_self_of_solid hall, splitWS_solid hall (natDigits_ne_nil n)]
  cases hd : natDigits n with
  | nil => exact absurd hd (natDigits_ne_nil n)
  | cons c rest =>
    have hc0 : '0' ≤ c ∧ c ≤ '9' := natDigits_all_digit n c (hd ▸ by simp)
    have hplus : ¬ c = '+' := by rintro rfl; revert hc0; decide
    have hminus : ¬ c = '-' := by rintro rfl; revert hc0; decide
    simp only [parseInt, hplus, if_false, hminus]
    have := parseDigits_natDigits_isSome n
    rw [hd] at this
    cases hpd : parseDigits (c :: rest) with
    | none => rw [hpd] at this; simp at this
    | some k => simp [hpd]

theorem takeWhile_append_of_all {α : Type} (p : α → Bool) {xs ys : List α}
    (h : ∀ x ∈ xs, p x = true) : (xs ++ ys).takeWhile p = xs ++ ys.takeWhile p := by
  induction xs with
  | nil => simp
  | cons a rest ih =>
    have ha := h a (by simp)
    have hr := ih (fun x hx => h x (by simp [hx]))
    simp [List.takeWhile_cons, ha, hr]

theorem dropWhile_append_of_all {α : Type} (p : α → Bool) {xs ys : List α}
    (h : ∀ x ∈ xs, p x = true) : (xs ++ ys).dropWhile p = ys.dropWhile p := by
  induction xs with
  | nil => simp
  | cons a rest ih =>
    have ha := h a (by simp)
    have hr := ih (fun x hx => h x (by simp [hx]))
    simp [List.dropWhile_cons, ha, hr]

/-- While accumulating a frame's body, the loop takes exactly the
maximal prefix of non-count lines as body and continues on the rest. -/
theorem parseFramesAux_accum_spec : ∀ (ls : List Line) (cl cm : Line) (body : List Line),
    parseFramesAux (.accum cl cm body) ls
      = ⟨cl, cm, body ++ ls.takeWhile (fun x => !isLineCount x)⟩ ::
          parseFrames (ls.dropWhile (fun x => !isLineCount x)) := by
  intro ls
  induction ls with
  | nil => intro cl cm body; simp [parseFramesAux, parseFrames]
  | cons l rest ih =>
    intro cl cm body
    by_cases h : isLineCount l
    · simp [parseFramesAux, parseFrames, h, List.takeWhile_cons, List.dropWhile_cons]
    · have hb : isLineCount l = false := by simpa using h
      simp only [parseFramesAux, hb, Bool.false_eq_true, if_false, ih,
        List.takeWhile_cons, Bool.not_false, if_true, List.dropWhile_cons]
      simp

theorem parseFrames_cons_noncount {l : Line} {rest : List Line}
    (h : isLineCount l = false) : parseFrames (l :: rest) = parseFrames rest := by
  simp [parseFrames, parseFramesAux, h]

theorem parseFrames_cons_count {l comment : Line} {rest2 : List Line}
    (h : isLineCount l = true) :
    parseFrames (l :: comment :: rest2) =
      ⟨l, comment, rest2.takeWhile (fun x => !isLineCount x)⟩ ::
        parseFrames (rest2.dropWhile (fun x => !isLineCount x)) := by
  have h1 : parseFrames (l :: comment :: rest2) = parseFramesAux (.accum l comment []) rest2 := by
    simp [parseFrames, parseFramesAux, h]
  rw [h1, parseFramesAux_accum_spec]
  simp

theorem parseFrames_count_last {l : Line} (h : isLineCount l = true) :
    parseFrames [l] = [] := by
  simp [parseFrames, parseFramesAux, h]

/-- A list that is empty or starts with a count line has an empty
"not-a-count-line" prefix. -/
theorem takeWhile_noncount_nil {ls : List Line}
    (h : ls = [] ∨ ∃ t ts, ls = t :: ts ∧ isLineCount t = true) :
    ls.takeWhile (fun x => !isLineCount x) = [] ∧
      ls.dropWhile (fun x => !isLineCount x) = ls := by
  rcases h with rfl | ⟨t, ts, rfl, ht⟩
  · simp
  · exact ⟨by simp [List.takeWhile_cons, ht], by simp [List.dropWhile_cons, ht]⟩

/-- Well-formedness of a frame as it occurs in a frame stream: its count
line is a count line and none of its body lines is one. -/
def frameWF (f : RefFrame) : Prop :=
  isLineCount f.countLine = true ∧ ∀ l ∈ f.body, isLineCount l = false

instance (f : RefFrame) : Decidable (frameWF f) := by
  unfold frameWF
  exact instDecidableAnd

/-- Re-parsing a concatenation of well-formed frames (followed by nothing
or by a lone count line and more input) recovers exactly those frames
followed by whatever the remainder parses to. -/
theorem parseFrames_flat_ext : ∀ (frames : List RefFrame) (tail : List Line),
    (∀ f ∈ frames, frameWF f) →
    (tail = [] ∨ ∃ t ts, tail = t :: ts ∧ isLineCount t = true) →
    parseFrames (frames.flatMap renderFrame ++ tail) = frames ++ parseFrames tail := by
  intro frames
  induction frames with
  | nil => intro tail _ _; simp
  | cons f rest ih =>
    intro tail hwf htail
    have hf := hwf f (by simp)
    have hbody : ∀ x ∈ f.body, (!isLineCount x) = true := by
      intro x hx
      simp [hf.2 x hx]
    have hhead : rest.flatMap renderFrame ++ tail = [] ∨
        ∃ t ts, rest.flatMap renderFrame ++ tail = t :: ts ∧ isLineCount t = true := by
      cases hrest : rest with
      | nil => simpa using htail
      | cons g grest =>
        right
        refine ⟨g.countLine, (g.comment :: g.body) ++ (grest.flatMap renderFrame ++ tail),
          ?_, (hwf g (by simp [hrest])).1⟩
        simp [renderFrame]
    obtain ⟨hA, hB⟩ := takeWhile_noncount_nil hhead
    have hrec := ih tail (fun g hg => hwf g (by simp [hg])) htail
    simp only [List.flatMap_cons, renderFrame, List.cons_append, List.append_assoc]
    rw [parseFrames_cons_count hf.1, takeWhile_append_of_all _ hbody,
        dropWhile_append_of_all _ hbody, hA, hB, hrec]
    simp

theorem parseFrames_nil : parseFrames [] = [] := rfl

/-- Every frame assembled by the parsing loop is well formed: its count
line satisfied `is_line_count`, and its body lines (collected while
`is_line_count` was false) do not. -/
theorem parseFrames_WF : ∀ (lines : List Line), ∀ f ∈ parseFrames lines, frameWF f := by
  intro lines
  generalize hn : lines.length = n
  induction n using Nat.strong_induction_on generalizing lines with
  | _ n ih =>
    cases lines with
    | nil => intro f hf; rw [parseFrames_nil] at hf; simp at hf
    | cons l rest =>
      by_cases hl : isLineCount l
      · cases rest with
        | nil => intro f hf; rw [parseFrames_count_last hl] at hf; simp at hf
        | cons comment rest2 =>
          intro f hf
          rw [parseFrames_cons_count hl] at hf
          rcases List.mem_cons.mp hf with rfl | hf2
          · refine ⟨hl, ?_⟩
            intro x hx
            simpa using List.mem_takeWhile_imp hx
          · have hlen : (rest2.dropWhile (fun x => !isLineCount x)).length < n := by
              have := (List.dropWhile_sublist (l := rest2) (fun x => !isLineCount x)).length_le
              simp only [List.length_cons] at hn
              omega
            exact ih _ hlen _ rfl f hf2
      · intro f hf
        rw [parseFrames_cons_noncount (by simpa using hl)] at hf
        have hlen : rest.length < n := by
          simp only [List.length_cons] at hn
          omega
        exact ih _ hlen _ rfl f hf

/-- The count-replacing transformation on an assembled frame. -/
def fixCount (f : RefFrame) : RefFrame :=
  ⟨natDigits f.body.length, f.comment, f.body⟩

theorem renderFixed_eq_renderFrame_fixCount (f : RefFrame) :
    renderFixed f = renderFrame (fixCount f) := rfl

/-- C5.  For every input, re-parsing the normalizer's output yields
exactly the input's frames with each originally declared count line
replaced by the decimal rendering of the actual body length, in the same
order; in particular every frame of the output has its count line equal
to the rendering of the number of body lines that follow its comment. -/
theorem fixLinenu_count_invariant (lines : List Line) :
    parseFrames (fixLinenu lines) = (parseFrames lines).map fixCount
    ∧ ∀ f ∈ parseFrames (fixLinenu lines), f.countLine = natDigits f.body.length := by
  have hwf := parseFrames_WF lines
  have hwf2 : ∀ f ∈ (parseFrames lines).map fixCount, frameWF f := by
    intro f hf
    rcases List.mem_map.mp hf with ⟨g, hg, rfl⟩
    exact ⟨isLineCount_natDigits _, (hwf g hg).2⟩
  have hmain : parseFrames (fixLinenu lines) = (parseFrames lines).map fixCount := by
    unfold fixLinenu
    calc parseFrames ((parseFrames lines).flatMap renderFixed)
        = parseFrames (((parseFrames lines).map fixCount).flatMap renderFrame) := by
          rw [List.flatMap_map]
          rfl
      _ = parseFrames (((parseFrames lines).map fixCount).flatMap renderFrame ++ []) := by
          rw [List.append_nil]
      _ = (parseFrames lines).map fixCount ++ parseFrames [] :=
          parseFrames_flat_ext _ [] hwf2 (Or.inl rfl)
      _ = (parseFrames lines).map fixCount := by rw [parseFrames_nil, List.append_nil]
  refine ⟨hmain, ?_⟩
  intro f hf
  rw [hmain] at hf
  rcases List.mem_map.mp hf with ⟨g, _, rfl⟩
  rfl

theorem flatMap_renderFixed_of_canonical : ∀ frames : List RefFrame,
    (∀ f ∈ frames, f.countLine = natDigits f.body.length) →
    frames.flatMap renderFixed = frames.flatMap renderFrame := by
  intro frames
  induction frames with
  | nil => intro _; rfl
  | cons f rest ih =>
    intro h
    simp only [List.flatMap_cons]
    rw [ih (fun g hg => h g (by simp [hg]))]
    unfold renderFixed renderFrame
    rw [h f (by simp)]

theorem parseFrames_append_noncount : ∀ (junk rest : List Line),
    (∀ l ∈ junk, isLineCount l = false) →
    parseFrames (junk ++ rest) = parseFrames rest := by
  intro junk
  induction junk with
  | nil => intro rest _; rfl
  | cons j js ih =>
    intro rest h
    rw [List.cons_append, parseFrames_cons_noncount (h j (by simp)),
        ih rest (fun l hl => h l (by simp [hl]))]

/-- C6 (counterexample).  A frame stream whose declared count *value*
equals the actual body length is not always a fixed point of the
normalizer: the input `["01", "c", "x"]` is a single well-formed frame
whose declared count parses to `1`, the length of its body, yet the
output rewrites the count line `"01"` to `"1"`. -/
theorem fixLinenu_not_identity_on_noncanonical_counts :
    (["01".data, "c".data, "x".data] : List Line)
      = ([⟨"01".data, "c".data, ["x".data]⟩] : List RefFrame).flatMap renderFrame
    ∧ (∀ f ∈ ([⟨"01".data, "c".data, ["x".data]⟩] : List RefFrame),
        frameWF f ∧ parseInt (stripWS f.countLine) = some ((f.body.length : ℤ)))
    ∧ fixLinenu ["01".data, "c".data, "x".data] ≠ ["01".data, "c".data, "x".data] := by
  decide

/-- C6 (amended).  The normalizer is the identity on frame streams whose
count lines are *canonically formatted*: when every frame's count line is
literally the decimal rendering of its body length (and body lines are
not count lines), the output equals the input. -/
theorem fixLinenu_idempotent_on_canonical_streams (frames : List RefFrame)
    (h : ∀ f ∈ frames, (∀ l ∈ f.body, isLineCount l = false)
        ∧ f.countLine = natDigits f.body.length) :
    fixLinenu (frames.flatMap renderFrame) = frames.flatMap renderFrame := by
  have hwf : ∀ f ∈ frames, frameWF f := by
    intro f hf
    refine ⟨?_, (h f hf).1⟩
    rw [(h f hf).2]
    exact isLineCount_natDigits _
  unfold fixLinenu
  have h1 : parseFrames (frames.flatMap renderFrame) = frames := by
    have h2 := parseFrames_flat_ext frames [] hwf (Or.inl rfl)
    rw [List.append_nil] at h2
    rw [h2, parseFrames_nil, List.append_nil]
  rw [h1]
  exact flatMap_renderFixed_of_canonical frames (fun f hf => (h f hf).2)

/-- Witness for C6's amended theorem at a concrete canonical stream. -/
theorem fixLinenu_idempotent_on_canonical_streams_witness :
    fixLinenu (([⟨"1".data, "c".data, ["x".data]⟩] : List RefFrame).flatMap renderFrame)
      = ([⟨"1".data, "c".data, ["x".data]⟩] : List RefFrame).flatMap renderFrame :=
  fixLinenu_idempotent_on_canonical_streams _ (by decide)

/-- Witness for C5 at a concrete input with a leading junk line, a wrong
declared count and a trailing dangling count line. -/
theorem fixLinenu_count_invariant_witness :
    parseFrames (fixLinenu ["junk".data, "7".data, "c".data, "x".data, "y".data, "3".data])
      = (parseFrames ["junk".data, "7".data, "c".data, "x".data, "y".data, "3".data]).map
          fixCount
    ∧ (⟨"2".data, "c".data, ["x".data, "y".data]⟩ : RefFrame).countLine
        = natDigits (⟨"2".data, "c".data, ["x".data, "y".data]⟩ : RefFrame).body.length :=
  ⟨(fixLinenu_count_invariant _).1,
   (fixLinenu_count_invariant ["junk".data, "7".data, "c".data, "x".data, "y".data, "3".data]).2
     _ (by decide)⟩

/-- C10.  The normalizer's output is exactly the concatenation of the
re-rendered frames: lines before the first count line and a final count
line with nothing after it contribute nothing to the output. -/
theorem fixLinenu_drops_header_and_dangling_count
    (junk : List Line) (frames : List RefFrame) (c : Line)
    (hjunk : ∀ l ∈ junk, isLineCount l = false)
    (hwf : ∀ f ∈ frames, frameWF f)
    (hc : isLineCount c = true) :
    fixLinenu (junk ++ frames.flatMap renderFrame ++ [c])
      = fixLinenu (frames.flatMap renderFrame)
    ∧ fixLinenu (frames.flatMap renderFrame) = frames.flatMap renderFixed := by
  have h1 : parseFrames (frames.flatMap renderFrame ++ [c]) = frames := by
    rw [parseFrames_flat_ext frames [c] hwf (Or.inr ⟨c, [], rfl, hc⟩),
        parseFrames_count_last hc, List.append_nil]
  have h2 : parseFrames (frames.flatMap renderFrame) = frames := by
    have h3 := parseFrames_flat_ext frames [] hwf (Or.inl rfl)
    rw [List.append_nil] at h3
    rw [h3, parseFrames_nil, List.append_nil]
  constructor
  · unfold fixLinenu
    rw [List.append_assoc, parseFrames_append_noncount junk _ hjunk, h1, h2]
  · unfold fixLinenu
    rw [h2]

/-- Witness for C10 at a concrete input. -/
theorem fixLinenu_drops_header_and_dangling_count_witness :
    fixLinenu (["hdr".data] ++ ([⟨"9".data, "c".data, ["b".data]⟩] : List RefFrame).flatMap
        renderFrame ++ ["4".data])
      = fixLinenu (([⟨"9".data, "c".data, ["b".data]⟩] : List RefFrame).flatMap renderFrame)
    ∧ fixLinenu (([⟨"9".data, "c".data, ["b".data]⟩] : List RefFrame).flatMap renderFrame)
      = ([⟨"9".data, "c".data, ["b".data]⟩] : List RefFrame).flatMap renderFixed :=
  fixLinenu_drops_header_and_dangling_count ["hdr".data] _ "4".data
    (by decide) (by decide) (by decide)

/-! ## `xyz_add_gen_msite.py` — M-site insertion tool -/

/-- One M-site definition block (`parse_msite_definitions` output entry):
molecule-type label (descriptive only), ordered pattern of atom names,
site name, and coefficients. -/
structure MsiteDef where
  mol_type : Line
  atom_names : List Line
  msite_name : Line
  coefficients : List ℚ
deriving DecidableEq, Repr

/-- The line filter of `parse_msite_definitions`: keep lines that are
non-blank after stripping and do not start with `#` (the `startswith`
test runs on the unstripped line, as in the source), and strip them. -/
def defnLineFilter (ls : List Line) : List Line :=
  (ls.filter (fun l => decide (stripWS l ≠ [] ∧ l.head? ≠ some '#'))).map stripWS

/-- `[float(c) for c in coeff_parts]`: all tokens must parse. -/
def traverseFloat : List Line → Option (List ℚ)
  | [] => some []
  | t :: ts =>
    match parseFloat t, traverseFloat ts with
    | some q, some qs => some (q :: qs)
    | _, _ => none

/-- The block loop of `parse_msite_definitions`: consume literal triples
of filtered lines; skip a block (after a stderr warning, not modelled in
the data stream) when the pattern line has fewer than 2 tokens, a
coefficient fails to parse, or the counts mismatch; drop a trailing
partial block. -/
def parseDefBlocks : List Line → List MsiteDef
  | a :: b :: c :: rest =>
    let pattern_parts := splitWS b
    if pattern_parts.length < 2 then parseDefBlocks rest
    else
      match traverseFloat (splitWS c) with
      | none => parseDefBlocks rest
      | some coeffs =>
        if coeffs.length ≠ pattern_parts.length - 1 then parseDefBlocks rest
        else ⟨a, pattern_parts.dropLast, pattern_parts.getLastD [], coeffs⟩ :: parseDefBlocks rest
  | _ => []

/-- `parse_msite_definitions` on the definition file's lines. -/
def parseMsiteDefinitions (ls : List Line) : List MsiteDef :=
  parseDefBlocks (defnLineFilter ls)

/-- `get_molecule_id`: the last whitespace token when there are at least
8 of them, else `None`. -/
def getMoleculeId (l : Line) : Option Line :=
  let parts := splitWS l
  if parts.length ≥ 8 then parts.getLast? else none

/-- `is_atom_line`: at least 4 whitespace tokens and tokens 2–4 parse as
floats. -/
def isAtomLine (l : Line) : Bool :=
  let parts := splitWS l
  if parts.length < 4 then false
  else (parseFloat (parts.getD 1 [])).isSome && (parseFloat (parts.getD 2 [])).isSome
    && (parseFloat (parts.getD 3 [])).isSome

/-- One parsed atom of a molecule group: name, coordinates, and the index
of its line in the group's line list (the dict built in
`process_molecule`). -/
structure Atom where
  name : Line
  x : ℚ
  y : ℚ
  z : ℚ
  line_index : ℕ
deriving DecidableEq, Repr

/-- Parse one atom line (called only on lines passing `is_atom_line`,
whose float fields therefore parse; the defaults are never reached
then). -/
def mkAtom (i : ℕ) (l : Line) : Atom :=
  let parts := splitWS l
  ⟨parts.getD 0 [], (parseFloat (parts.getD 1 [])).getD 0,
   (parseFloat (parts.getD 2 [])).getD 0, (parseFloat (parts.getD 3 [])).getD 0, i⟩

/-- The atom-collection loop at the top of `process_molecule`. -/
def parseAtoms (mol_lines : List Line) : List Atom :=
  (mol_lines.enum.filter (fun p => isAtomLine p.2)).map (fun p => mkAtom p.1 p.2)

/-- `dict.get(k, 0)` on the association-list model of a Python dict
(assignment prepends; only this reader observes the dict). -/
def dictGetD (d : List (Line × ℕ)) (k : Line) : ℕ :=
  match d.find? (fun p => p.1 == k) with
  | some p => p.2
  | none => 0

/-- `d[k] = v` on the association-list model of a Python dict. -/
def dictSet (d : List (Line × ℕ)) (k : Line) (v : ℕ) : List (Line × ℕ) :=
  (k, v) :: d

/-- The `pattern_occurrences` loop of `find_pattern_in_molecule`: pair
each pattern slot with the occurrence rank it requires (the running
per-name count over the pattern, via `seen_counts`). -/
def patternOccAux (seen : List (Line × ℕ)) : List Line → List (Line × ℕ)
  | [] => []
  | n :: rest =>
    let c := dictGetD seen n + 1
    (n, c) :: patternOccAux (dictSet seen n c) rest

/-- Occurrence requirement of each pattern slot. -/
def patternOccurrences (pattern : List Line) : List (Line × ℕ) :=
  patternOccAux [] pattern

/-- The inner `for i, (pattern_name, needed_occurrence)` loop of
`find_pattern_in_molecule`: walk the slots in order; at the first slot
requiring (`nm`, `cur`) bind the atom if the slot is still unbound, and
stop ("break"). -/
def bindAtom (po : List (Line × ℕ)) (found : List (Option Atom)) (nm : Line) (cur : ℕ)
    (a : Atom) : List (Option Atom) :=
  match po, found with
  | p :: po2, f :: found2 =>
    if p.1 = nm ∧ p.2 = cur then (if f = none then some a else f) :: found2
    else f :: bindAtom po2 found2 nm cur a
  | _, found => found

/-- One step of the atom scan of `find_pattern_in_molecule`: names not in
the pattern (the keys of `needed_counts`) are ignored; otherwise bump the
per-name running count and try to bind. -/
def scanStep (pattern : List Line) (po : List (Line × ℕ))
    (st : List (Option Atom) × List (Line × ℕ)) (a : Atom) :
    List (Option Atom) × List (Line × ℕ) :=
  if a.name ∈ pattern then
    let cur := dictGetD st.2 a.name + 1
    (bindAtom po st.1 a.name cur a, dictSet st.2 a.name cur)
  else st

/-- Extraction of a bound slot (applied only when every slot is bound). -/
def unwrapAtom (o : Option Atom) : Atom := o.getD ⟨[], 0, 0, 0, 0⟩

/-- `find_pattern_in_molecule`: scan the atoms in file order and return
the bound slots in pattern order, or `None` when some slot stays
unbound. -/
def findPatternInMolecule (atoms : List Atom) (pattern : List Line) : Option (List Atom) :=
  let po := patternOccurrences pattern
  let st := atoms.foldl (scanStep pattern po) (List.replicate pattern.length none, [])
  if st.1.all Option.isSome then some (st.1.map unwrapAtom) else none

/-- The trailing fields of a synthesized full-format M-site record: the
three force components (written as literal zeros by the source) and the
mass and molecule-id tokens copied from the template line. -/
structure MsiteTail where
  fx : ℚ
  fy : ℚ
  fz : ℚ
  mass : Line
  molid : Line
deriving DecidableEq, Repr

/-- A synthesized M-site record.  The source formats it as a text line
(name left-justified to 8 characters, coordinates with 7 decimals); the
embedding keeps the fields structured and the numbers exact, `tail =
none` being the degraded name-plus-coordinates format. -/
structure MsiteRecord where
  name : Line
  x : ℚ
  y : ℚ
  z : ℚ
  tail : Option MsiteTail
deriving DecidableEq, Repr

/-- A line of the tool's standard output: an input line passed through
verbatim, or a synthesized M-site record. -/
inductive OutLine where
  | orig (l : Line)
  | msite (r : MsiteRecord)
deriving DecidableEq, Repr

/-- `sum(coeff[i] * v[i])` over the bound atoms.  The source indexes the
coefficient list by atom position; both lists have the pattern's length
for every definition the parser produces, so the zip loses nothing. -/
def weightedSum (cs : List ℚ) (vs : List ℚ) : ℚ :=
  ((cs.zip vs).map (fun p => p.1 * p.2)).sum

/-- The body of the `for defn in definitions` loop of `process_molecule`
for one definition: match the pattern (an empty bound list is falsy in
Python and is treated as no match); on success compute the weighted
coordinates, take the line of the last bound atom as template, and build
the record, reading tokens 8 and 9 (indices 7 and 8) of the template when
it has at least 8 tokens — token index 8 may not exist, which the source
lets escape as an uncaught `IndexError`. -/
def synthesizeForDef (mol_lines : List Line) (atoms : List Atom) (defn : MsiteDef) :
    Except Line (Option (ℕ × MsiteRecord)) :=
  match findPatternInMolecule atoms defn.atom_names with
  | none => .ok none
  | some pattern_atoms =>
    if h : pattern_atoms = [] then .ok none
    else
      let mx := weightedSum defn.coefficients (pattern_atoms.map Atom.x)
      let my := weightedSum defn.coefficients (pattern_atoms.map Atom.y)
      let mz := weightedSum defn.coefficients (pattern_atoms.map Atom.z)
      let last_pattern_atom := pattern_atoms.getLast h
      let parts := splitWS (mol_lines.getD last_pattern_atom.line_index [])
      if parts.length ≥ 8 then
        match parts.get? 8 with
        | none => .error "IndexError: list index out of range".data
        | some molid =>
          .ok (some (last_pattern_atom.line_index + 1,
            ⟨defn.msite_name, mx, my, mz, some ⟨0, 0, 0, parts.getD 7 [], molid⟩⟩))
      else
        .ok (some (last_pattern_atom.line_index + 1,
          ⟨defn.msite_name, mx, my, mz, none⟩))

/-- The full `for defn in definitions` loop: the `insertions` list in
definition order (an exception from any definition aborts the run, as in
the source). -/
def computeInsertions (mol_lines : List Line) (atoms : List Atom) :
    List MsiteDef → Except Line (List (ℕ × MsiteRecord))
  | [] => .ok []
  | defn :: defs =>
    match synthesizeForDef mol_lines atoms defn with
    | .error e => .error e
    | .ok none => computeInsertions mol_lines atoms defs
    | .ok (some ins) =>
      match computeInsertions mol_lines atoms defs with
      | .error e => .error e
      | .ok rest => .ok (ins :: rest)

/-- `for index, line in reversed(insertions): output_lines.insert(index,
line)`. -/
def applyInsertions (base : List OutLine) (ins : List (ℕ × MsiteRecord)) : List OutLine :=
  ins.reverse.foldl (fun acc p => pyInsert acc p.1 (OutLine.msite p.2)) base

/-- `process_molecule`: the output lines for one molecule group, paired
with the diagnostics the function writes to stderr — the source contains
no stderr write in this function, so that component is always empty. -/
def processMolecule (mol_lines : List Line) (definitions : List MsiteDef) :
    Except Line (List OutLine × List Line) :=
  match computeInsertions mol_lines (parseAtoms mol_lines) definitions with
  | .error e => .error e
  | .ok ins => .ok (applyInsertions (mol_lines.map OutLine.orig) ins, [])

/-- The loop state of `main` in `xyz_add_gen_msite.py`. -/
structure MainState where
  current_mol_id : Option Line
  current_mol_lines : List Line
  header_mode : Bool
deriving DecidableEq, Repr

/-- One iteration of the `for line in f` loop of `main`: returns the
lines written to standard output during the iteration and the new state
(or the uncaught exception). -/
def processLine (definitions : List MsiteDef) (st : MainState) (line : Line) :
    Except Line (List OutLine × MainState) :=
  let mol_id := getMoleculeId line
  let header_mode := if st.header_mode ∧ mol_id.isSome then false else st.header_mode
  if header_mode then
    .ok ([.orig line], ⟨st.current_mol_id, st.current_mol_lines, header_mode⟩)
  else if mol_id = st.current_mol_id then
    .ok ([], ⟨st.current_mol_id, st.current_mol_lines ++ [line], header_mode⟩)
  else
    match (if st.current_mol_lines ≠ [] then
        (processMolecule st.current_mol_lines definitions).map (fun r => r.1)
      else .ok []) with
    | .error e => .error e
    | .ok flushed =>
      match mol_id with
      | some _ => .ok (flushed, ⟨mol_id, [line], header_mode⟩)
      | none => .ok (flushed ++ [.orig line], ⟨none, [], header_mode⟩)

/-- The `for line in f` loop of `main` followed by the final flush of the
last molecule group.  A raised exception aborts the run (the modelling
drops the output already written before the crash, which the claims do
not concern). -/
def runLines (definitions : List MsiteDef) : MainState → List Line → Except Line (List OutLine)
  | st, [] =>
    if st.current_mol_lines ≠ [] then
      (processMolecule st.current_mol_lines definitions).map (fun r => r.1)
    else .ok []
  | st, line :: rest =>
    match processLine definitions st line with
    | .error e => .error e
    | .ok (out, st2) =>
      match runLines definitions st2 rest with
      | .error e => .error e
      | .ok outRest => .ok (out ++ outRest)

/-- `main` of `xyz_add_gen_msite.py` on the body of the input stream,
from the initial state (header mode on, no current molecule). -/
def mainRun (definitions : List MsiteDef) (lines : List Line) : Except Line (List OutLine) :=
  runLines definitions ⟨none, [], true⟩ lines

/-! ## Claim theorems for the M-site tool -/

/-- C9.  A molecule group whose matched template line has exactly 8
whitespace tokens (so it carries a molecule id and is grouped) drives
site synthesis into reading token index 8 (the 9th token) of the
template, which does not exist: the run aborts with the uncaught
`IndexError` instead of emitting a synthesized record. -/
theorem msite_crash_on_eight_token_template :
    mainRun [⟨"DMA".data, ["C1".data], "EM".data, [1]⟩]
        ["C1 0.1 0.2 0.3 0.0 0.0 0.0 7".data]
      = .error "IndexError: list index out of range".data := by decide

/-- Every successful `process_molecule` run emits no diagnostic: the
function contains no stderr write. -/
theorem processMolecule_no_diagnostics (mol_lines : List Line) (definitions : List MsiteDef)
    (r : List OutLine × List Line) (h : processMolecule mol_lines definitions = .ok r) :
    r.2 = [] := by
  unfold processMolecule at h
  cases hc : computeInsertions mol_lines (parseAtoms mol_lines) definitions with
  | error e => rw [hc] at h; cases h
  | ok ins =>
    rw [hc] at h
    cases h
    rfl

/-- C7 (counterexample).  On a one-atom molecule whose only line has 4
tokens (fewer than 8), the matched definition makes the synthesizer emit
the degraded name-plus-coordinates record — but, contrary to the claim,
no warning diagnostic is emitted: the diagnostic component of the result
is empty (the source's `else` branch at lines 213–214 prints nothing). -/
theorem degraded_record_yields_no_warning :
    processMolecule ["X1 1.0 2.0 3.0".data] [⟨"X".data, ["X1".data], "M".data, [1]⟩]
      = .ok ([.orig "X1 1.0 2.0 3.0".data, .msite ⟨"M".data, 1, 2, 3, none⟩], ([] : List Line))
    ∧ ([] : List Line) = [] := ⟨by decide, rfl⟩

/-- C7 (amended).  When the template line of the last bound pattern atom
has fewer than 8 whitespace tokens, the synthesizer degrades to a record
carrying only the site name and the three coordinates (`tail = none`),
succeeds rather than failing — and emits no diagnostic at all (the
source's degrade branch prints nothing). -/
theorem degraded_template_bare_record
    (mol_lines : List Line) (atoms : List Atom) (defn : MsiteDef)
    (pas : List Atom) (hne : pas ≠ [])
    (hmatch : findPatternInMolecule atoms defn.atom_names = some pas)
    (hshort : (splitWS (mol_lines.getD (pas.getLast hne).line_index [])).length < 8) :
    synthesizeForDef mol_lines atoms defn
      = .ok (some ((pas.getLast hne).line_index + 1,
          ⟨defn.msite_name,
           weightedSum defn.coefficients (pas.map Atom.x),
           weightedSum defn.coefficients (pas.map Atom.y),
           weightedSum defn.coefficients (pas.map Atom.z), none⟩))
    ∧ ∀ (defs : List MsiteDef) (r : List OutLine × List Line),
        processMolecule mol_lines defs = .ok r → r.2 = [] := by
  constructor
  · simp only [synthesizeForDef, hmatch]
    rw [dif_neg hne, if_neg (by omega)]
  · intro defs r h
    exact processMolecule_no_diagnostics _ _ _ h

/-- Witness for C7's amended theorem at the concrete degraded input. -/
theorem degraded_template_bare_record_witness :
    synthesizeForDef ["X1 1.0 2.0 3.0".data] (parseAtoms ["X1 1.0 2.0 3.0".data])
        ⟨"X".data, ["X1".data], "M".data, [1]⟩
      = .ok (some (1, ⟨"M".data,
          weightedSum [1] ([⟨"X1".data, 1, 2, 3, 0⟩].map Atom.x),
          weightedSum [1] ([⟨"X1".data, 1, 2, 3, 0⟩].map Atom.y),
          weightedSum [1] ([⟨"X1".data, 1, 2, 3, 0⟩].map Atom.z), none⟩)) :=
  (degraded_template_bare_record ["X1 1.0 2.0 3.0".data]
    (parseAtoms ["X1 1.0 2.0 3.0".data]) ⟨"X".data, ["X1".data], "M".data, [1]⟩
    [⟨"X1".data, 1, 2, 3, 0⟩] (by decide) (by decide) (by decide)).1

/-- The definition-file lines of the spec's end-to-end example. -/
def dmaDefLines : List Line := ["DMA".data, "C1 H2 C1 EM".data, "0.2 0.2 0.2".data]

/-- A 3-atom molecule `C1, H2, C1` (mass `1.0`, molecule id `7`) with
non-zero template forces, for the spec's end-to-end example. -/
def dmaMol : List Line :=
  ["C1 5.0 0.0 0.0 0.5 0.5 0.5 1.0 7".data,
   "H2 0.0 5.0 0.0 0.5 0.5 0.5 1.0 7".data,
   "C1 5.0 5.0 5.0 0.5 0.5 0.5 1.0 7".data]

/-- C3.  For every successful binding, the synthesized record carries the
site name, each coordinate is the coefficient-weighted sum of the bound
atoms' corresponding coordinates, the insertion index is one past the
last bound pattern atom's line, and when the full format is emitted its
force components are zero regardless of the template's values while mass
and molecule id are tokens 8 and 9 of the *last bound pattern atom's*
line; concretely, definition `DMA / C1 H2 C1 EM / 0.2 0.2 0.2` on the
3-atom molecule above inserts one `EM` record after the second `C1` with
the weighted-sum coordinates, zero forces and trailing fields `1.0 7`. -/
theorem msite_record_contents :
    (∀ (mol_lines : List Line) (atoms : List Atom) (defn : MsiteDef)
       (pas : List Atom) (hne : pas ≠ [])
       (_hmatch : findPatternInMolecule atoms defn.atom_names = some pas)
       (idx : ℕ) (rec : MsiteRecord),
       synthesizeForDef mol_lines atoms defn = .ok (some (idx, rec)) →
       rec.name = defn.msite_name
       ∧ rec.x = weightedSum defn.coefficients (pas.map Atom.x)
       ∧ rec.y = weightedSum defn.coefficients (pas.map Atom.y)
       ∧ rec.z = weightedSum defn.coefficients (pas.map Atom.z)
       ∧ idx = (pas.getLast hne).line_index + 1
       ∧ (∀ t, rec.tail = some t →
           t.fx = 0 ∧ t.fy = 0 ∧ t.fz = 0
           ∧ t.mass = (splitWS (mol_lines.getD (pas.getLast hne).line_index [])).getD 7 []
           ∧ some t.molid
              = (splitWS (mol_lines.getD (pas.getLast hne).line_index [])).get? 8))
    ∧ processMolecule dmaMol (parseMsiteDefinitions dmaDefLines)
        = .ok ([.orig (dmaMol.getD 0 []), .orig (dmaMol.getD 1 []), .orig (dmaMol.getD 2 []),
            .msite ⟨"EM".data, 2, 2, 1, some ⟨0, 0, 0, "1.0".data, "7".data⟩⟩],
          ([] : List Line)) := by
  constructor
  · intro mol_lines atoms defn pas hne hmatch idx rec hsynth
    simp only [synthesizeForDef, hmatch] at hsynth
    rw [dif_neg hne] at hsynth
    by_cases hlen : (splitWS (mol_lines.getD (pas.getLast hne).line_index [])).length ≥ 8
    · rw [if_pos hlen] at hsynth
      cases hg : (splitWS (mol_lines.getD (pas.getLast hne).line_index [])).get? 8 with
      | none => rw [hg] at hsynth; cases hsynth
      | some molid =>
        rw [hg] at hsynth
        simp only [Except.ok.injEq, Option.some.injEq, Prod.mk.injEq] at hsynth
        obtain ⟨h1, h2⟩ := hsynth
        subst h1
        subst h2
        refine ⟨rfl, rfl, rfl, rfl, rfl, ?_⟩
        intro t ht
        simp only [Option.some.injEq] at ht
        subst ht
        exact ⟨rfl, rfl, rfl, rfl, rfl⟩
    · rw [if_neg hlen] at hsynth
      simp only [Except.ok.injEq, Option.some.injEq, Prod.mk.injEq] at hsynth
      obtain ⟨h1, h2⟩ := hsynth
      subst h1
      subst h2
      refine ⟨rfl, rfl, rfl, rfl, rfl, ?_⟩
      intro t ht
      cases ht
  · decide

/-- Witness for C3 at the end-to-end example: the general part applied to
the concrete binding of `C1 H2 C1` in the molecule. -/
theorem msite_record_contents_witness :
    (⟨"EM".data, 2, 2, 1, some ⟨0, 0, 0, "1.0".data, "7".data⟩⟩ : MsiteRecord).x
      = weightedSum [1/5, 1/5, 1/5]
          (([⟨"C1".data, 5, 0, 0, 0⟩, ⟨"H2".data, 0, 5, 0, 1⟩, ⟨"C1".data, 5, 5, 5, 2⟩]
            : List Atom).map Atom.x) :=
  (msite_record_contents.1 dmaMol (parseAtoms dmaMol)
    ⟨"DMA".data, ["C1".data, "H2".data, "C1".data], "EM".data, [1/5, 1/5, 1/5]⟩
    [⟨"C1".data, 5, 0, 0, 0⟩, ⟨"H2".data, 0, 5, 0, 1⟩, ⟨"C1".data, 5, 5, 5, 2⟩]
    (by decide) (by decide) 3
    ⟨"EM".data, 2, 2, 1, some ⟨0, 0, 0, "1.0".data, "7".data⟩⟩ (by decide)).2.1

/-- A definition whose pattern spans two of the id-less atom lines
below. -/
def idlessDef : MsiteDef := ⟨"X".data, ["X1".data, "Y1".data], "M".data, [1, 1]⟩

/-- Body input containing one id-bearing line followed by three
consecutive id-less lines (4 tokens each: atom-like but with no molecule
id). -/
def idlessInput : List Line :=
  ["A1 1.0 2.0 3.0 0.0 0.0 0.0 9.0 7".data,
   "X1 1.0 0.0 0.0".data,
   "Y1 2.0 0.0 0.0".data,
   "X1 3.0 0.0 0.0".data]

/-- C8 (counterexample).  Only the *first* consecutive id-less body line
is flushed-and-passed-through; once `current_mol_id` is `None`, a further
id-less line compares equal to it (`None == None`) and is buffered into
an anonymous group instead of being passed through — here the pattern
`X1 Y1` then matches inside that anonymous group and a site record is
inserted between the id-less lines, which pure pass-through would never
produce.  The last conjunct shows the buffering step itself: an id-less
line arriving with `current_mol_id = None` emits nothing. -/
theorem idless_line_buffered_not_passed_through :
    mainRun [idlessDef] idlessInput
      = .ok [.orig (idlessInput.getD 0 []), .orig (idlessInput.getD 1 []),
             .orig (idlessInput.getD 2 []), .msite ⟨"M".data, 5, 0, 0, none⟩,
             .orig (idlessInput.getD 3 [])]
    ∧ ([.orig (idlessInput.getD 0 []), .orig (idlessInput.getD 1 []),
        .orig (idlessInput.getD 2 []), .msite ⟨"M".data, 5, 0, 0, none⟩,
        .orig (idlessInput.getD 3 [])] : List OutLine)
        ≠ [.orig (idlessInput.getD 0 []), .orig (idlessInput.getD 1 []),
           .orig (idlessInput.getD 2 []), .orig (idlessInput.getD 3 [])]
    ∧ processLine [idlessDef] ⟨none, ["Y1 2.0 0.0 0.0".data], false⟩ "X1 3.0 0.0 0.0".data
        = .ok ([], ⟨none, ["Y1 2.0 0.0 0.0".data, "X1 3.0 0.0 0.0".data], false⟩) := by
  refine ⟨by decide, by decide, by decide⟩

/-- C8 (amended).  In body mode, a line yielding no molecule id flushes
the pending group and is passed through unchanged *when a real molecule
id is current*; but when the current id is already `None` (i.e. after
such a pass-through), a further id-less line is appended to an anonymous
group and nothing is emitted for it at that step. -/
theorem idless_line_flush_behavior
    (defs : List MsiteDef) (st : MainState) (line : Line)
    (hhdr : st.header_mode = false)
    (hid : getMoleculeId line = none) :
    (∀ mid, st.current_mol_id = some mid → st.current_mol_lines ≠ [] →
      ∀ out dg, processMolecule st.current_mol_lines defs = .ok (out, dg) →
        processLine defs st line = .ok (out ++ [.orig line], ⟨none, [], false⟩))
    ∧ (st.current_mol_id = none →
        processLine defs st line = .ok ([], ⟨none, st.current_mol_lines ++ [line], false⟩)) := by
  constructor
  · intro mid hmid hne out dg hproc
    simp [processLine, hid, hhdr, hmid, hne, hproc, Except.map]
  · intro hmid
    simp [processLine, hid, hhdr, hmid]

/-- Witness for C8's amended theorem: a concrete flush-and-pass-through
step (current id `7`) and a concrete buffering step (current id
`None`). -/
theorem idless_line_flush_behavior_witness :
    processLine [idlessDef] ⟨some "7".data, ["A1 1.0 2.0 3.0 0.0 0.0 0.0 9.0 7".data], false⟩
        "X1 1.0 0.0 0.0".data
      = .ok ([.orig "A1 1.0 2.0 3.0 0.0 0.0 0.0 9.0 7".data, .orig "X1 1.0 0.0 0.0".data],
          ⟨none, [], false⟩)
    ∧ processLine [idlessDef] ⟨none, ["X1 1.0 0.0 0.0".data], false⟩ "Y1 2.0 0.0 0.0".data
      = .ok ([], ⟨none, ["X1 1.0 0.0 0.0".data, "Y1 2.0 0.0 0.0".data], false⟩) :=
  ⟨by
    have h := (idless_line_flush_behavior [idlessDef]
      ⟨some "7".data, ["A1 1.0 2.0 3.0 0.0 0.0 0.0 9.0 7".data], false⟩
      "X1 1.0 0.0 0.0".data rfl (by decide)).1 "7".data rfl (by decide)
      [.orig "A1 1.0 2.0 3.0 0.0 0.0 0.0 9.0 7".data] [] (by decide)
    exact h,
   by
    have h := (idless_line_flush_behavior [idlessDef]
      ⟨none, ["X1 1.0 0.0 0.0".data], false⟩ "Y1 2.0 0.0 0.0".data rfl (by decide)).2 rfl
    exact h⟩

/-! ## Characterization of the pattern matcher -/

/-- The `k`-th (1-based) atom with a given name, in list order: the
specification value against which the scan of
`find_pattern_in_molecule` is verified. -/
def nthOcc : List Atom → Line → ℕ → Option Atom
  | [], _, _ => none
  | a :: rest, nm, k =>
    if a.name = nm then (if k = 1 then some a else nthOcc rest nm (k - 1))
    else nthOcc rest nm k

/-- Number of atoms of a molecule carrying a given name. -/
def countName (l : List Atom) (nm : Line) : ℕ := countOcc (l.map Atom.name) nm

theorem countOcc_append {α : Type} [DecidableEq α] (l1 l2 : List α) (x : α) :
    countOcc (l1 ++ l2) x = countOcc l1 x + countOcc l2 x := by
  simp [countOcc, List.filter_append]

theorem countOcc_cons {α : Type} [DecidableEq α] (a : α) (l : List α) (x : α) :
    countOcc (a :: l) x = (if a = x then 1 else 0) + countOcc l x := by
  by_cases h : a = x <;> simp [countOcc, List.filter_cons, h] <;> omega

theorem countName_append (l1 l2 : List Atom) (nm : Line) :
    countName (l1 ++ l2) nm = countName l1 nm + countName l2 nm := by
  simp [countName, countOcc_append]

theorem countName_cons (a : Atom) (l : List Atom) (nm : Line) :
    countName (a :: l) nm = (if a.name = nm then 1 else 0) + countName l nm := by
  simp [countName, countOcc_cons]

theorem countName_singleton (a : Atom) (nm : Line) :
    countName [a] nm = if a.name = nm then 1 else 0 := by
  by_cases h : a.name = nm <;> simp [countName, countOcc, h]

theorem nthOcc_zero : ∀ (l : List Atom) (nm : Line), nthOcc l nm 0 = none := by
  intro l nm
  induction l with
  | nil => rfl
  | cons a rest ih =>
    unfold nthOcc
    by_cases h : a.name = nm <;> simp [h, ih]

theorem nthOcc_none_of_count_lt : ∀ (l : List Atom) (nm : Line) (k : ℕ),
    countName l nm < k → nthOcc l nm k = none := by
  intro l
  induction l with
  | nil => intro nm k _; rfl
  | cons a rest ih =>
    intro nm k hk
    rw [countName_cons] at hk
    unfold nthOcc
    by_cases h : a.name = nm
    · simp only [h, if_true]
      rw [if_neg (by simp [h] at hk; omega)]
      exact ih nm (k - 1) (by simp [h] at hk; omega)
    · simp only [h, if_false]
      exact ih nm k (by simp [h] at hk; omega)

theorem nthOcc_append_le : ∀ (l l2 : List Atom) (nm : Line) (k : ℕ),
    1 ≤ k → k ≤ countName l nm → nthOcc (l ++ l2) nm k = nthOcc l nm k := by
  intro l
  induction l with
  | nil =>
    intro l2 nm k h1 h2
    simp [countName, countOcc] at h2
    omega
  | cons a rest ih =>
    intro l2 nm k h1 h2
    rw [countName_cons] at h2
    simp only [List.cons_append]
    unfold nthOcc
    by_cases h : a.name = nm
    · simp only [h, if_true]
      by_cases hk : k = 1
      · simp [hk]
      · rw [if_neg hk, if_neg hk]
        exact ih l2 nm (k - 1) (by omega) (by simp [h] at h2; omega)
    · simp only [h, if_false]
      exact ih l2 nm k h1 (by simp [h] at h2; omega)

theorem nthOcc_append_self : ∀ (l : List Atom) (a : Atom) (nm : Line),
    a.name = nm → nthOcc (l ++ [a]) nm (countName l nm + 1) = some a := by
  intro l
  induction l with
  | nil =>
    intro a nm ha
    simp [countName, countOcc, nthOcc, ha]
  | cons b rest ih =>
    intro a nm ha
    rw [countName_cons]
    simp only [List.cons_append]
    unfold nthOcc
    by_cases h : b.name = nm
    · have hc : (if b.name = nm then 1 else 0) + countName rest nm + 1 = countName rest nm + 2 := by
        rw [if_pos h]
        omega
      rw [hc, if_pos h, if_neg (by omega)]
      have h2 : countName rest nm + 2 - 1 = countName rest nm + 1 := by omega
      rw [h2]
      exact ih a nm ha
    · have hc : (if b.name = nm then 1 else 0) + countName rest nm + 1 = countName rest nm + 1 := by
        rw [if_neg h]
        omega
      rw [hc, if_neg h]
      exact ih a nm ha

theorem nthOcc_append_ne : ∀ (l : List Atom) (a : Atom) (nm : Line) (k : ℕ),
    a.name ≠ nm → nthOcc (l ++ [a]) nm k = nthOcc l nm k := by
  intro l
  induction l with
  | nil =>
    intro a nm k ha
    simp [nthOcc, ha]
  | cons b rest ih =>
    intro a nm k ha
    simp only [List.cons_append]
    unfold nthOcc
    by_cases h : b.name = nm <;> simp [h, ih _ _ _ ha]

theorem nthOcc_mem : ∀ (l : List Atom) (nm : Line) (k : ℕ) (a : Atom),
    nthOcc l nm k = some a → a ∈ l := by
  intro l
  induction l with
  | nil => intro nm k a h; cases h
  | cons b rest ih =>
    intro nm k a h
    unfold nthOcc at h
    by_cases hb : b.name = nm
    · simp only [hb, if_true] at h
      by_cases hk : k = 1
      · rw [if_pos hk] at h
        cases h
        simp
      · rw [if_neg hk] at h
        exact List.mem_cons_of_mem _ (ih _ _ _ h)
    · simp only [hb, if_false] at h
      exact List.mem_cons_of_mem _ (ih _ _ _ h)

theorem nthOcc_name : ∀ (l : List Atom) (nm : Line) (k : ℕ) (a : Atom),
    nthOcc l nm k = some a → a.name = nm := by
  intro l
  induction l with
  | nil => intro nm k a h; cases h
  | cons b rest ih =>
    intro nm k a h
    unfold nthOcc at h
    by_cases hb : b.name = nm
    · simp only [hb, if_true] at h
      by_cases hk : k = 1
      · rw [if_pos hk] at h
        cases h
        exact hb
      · rw [if_neg hk] at h
        exact ih _ _ _ h
    · simp only [hb, if_false] at h
      exact ih _ _ _ h

theorem nthOcc_eq_filter_get? : ∀ (l : List Atom) (nm : Line) (k : ℕ), 1 ≤ k →
    nthOcc l nm k = (l.filter (fun x => x.name = nm)).get? (k - 1) := by
  intro l
  induction l with
  | nil => intro nm k _; simp [nthOcc]
  | cons b rest ih =>
    intro nm k hk
    unfold nthOcc
    by_cases h : b.name = nm
    · rw [if_pos h]
      rw [List.filter_cons_of_pos (by simp [h])]
      by_cases hk1 : k = 1
      · subst hk1
        simp
      · rw [if_neg hk1, ih nm (k - 1) (by omega)]
        have h2 : k - 1 = (k - 2) + 1 := by omega
        rw [h2]
        simp only [List.get?_cons_succ, Nat.add_sub_cancel]
    · rw [if_neg h, List.filter_cons_of_neg (by simp [h])]
      exact ih nm k hk

theorem nthOcc_pos_of_some : ∀ (l : List Atom) (nm : Line) (k : ℕ) (a : Atom),
    nthOcc l nm k = some a → 1 ≤ k := by
  intro l nm k a h
  by_contra hk
  have : k = 0 := by omega
  rw [this, nthOcc_zero] at h
  cases h

/-- Two distinct occurrence ranks of the same name bind distinct atoms,
provided the molecule's atoms carry pairwise distinct line indices. -/
theorem nthOcc_inj (l : List Atom) (nm : Line) (k1 k2 : ℕ) (a b : Atom)
    (hw : List.Pairwise (fun x y : Atom => x.line_index ≠ y.line_index) l)
    (h1 : nthOcc l nm k1 = some a) (h2 : nthOcc l nm k2 = some b) (hk : k1 ≠ k2) :
    a ≠ b := by
  have hk1 := nthOcc_pos_of_some l nm k1 a h1
  have hk2 := nthOcc_pos_of_some l nm k2 b h2
  rw [nthOcc_eq_filter_get? l nm k1 hk1] at h1
  rw [nthOcc_eq_filter_get? l nm k2 hk2] at h2
  have hwf : List.Pairwise (fun x y : Atom => x.line_index ≠ y.line_index)
      (l.filter (fun x => x.name = nm)) := List.Pairwise.filter _ hw
  rw [List.pairwise_iff_get] at hwf
  have hl1 : k1 - 1 < (l.filter (fun x => x.name = nm)).length := by
    by_contra hc
    rw [List.get?_eq_none.mpr (by omega)] at h1
    cases h1
  have hl2 : k2 - 1 < (l.filter (fun x => x.name = nm)).length := by
    by_contra hc
    rw [List.get?_eq_none.mpr (by omega)] at h2
    cases h2
  rw [List.get?_eq_get hl1] at h1
  rw [List.get?_eq_get hl2] at h2
  have ha : a = (l.filter (fun x => x.name = nm)).get ⟨k1 - 1, hl1⟩ := by
    cases h1
    rfl
  have hb : b = (l.filter (fun x => x.name = nm)).get ⟨k2 - 1, hl2⟩ := by
    cases h2
    rfl
  intro hab
  rcases Nat.lt_or_ge (k1 - 1) (k2 - 1) with hlt | hge
  · have := hwf ⟨k1 - 1, hl1⟩ ⟨k2 - 1, hl2⟩ hlt
    rw [← ha, ← hb] at this
    exact this (by rw [hab])
  · have hlt2 : k2 - 1 < k1 - 1 := by omega
    have := hwf ⟨k2 - 1, hl2⟩ ⟨k1 - 1, hl1⟩ hlt2
    rw [← ha, ← hb] at this
    exact this (by rw [hab])

theorem dictGetD_set_self (d : List (Line × ℕ)) (k : Line) (v : ℕ) :
    dictGetD (dictSet d k v) k = v := by
  simp [dictGetD, dictSet, List.find?_cons_of_pos]

theorem countOcc_singleton {α : Type} [DecidableEq α] (a x : α) :
    countOcc [a] x = if a = x then 1 else 0 := by
  by_cases h : a = x <;> simp [countOcc, h]

theorem dictGetD_set_ne (d : List (Line × ℕ)) (k k' : Line) (v : ℕ) (h : k' ≠ k) :
    dictGetD (dictSet d k v) k' = dictGetD d k' := by
  have hb : ((k, v).1 == k') = false := by
    simp only [beq_eq_false_iff_ne, ne_eq]
    intro hc
    exact h hc.symm
  simp [dictGetD, dictSet, List.find?, hb]

theorem dictGetD_nil (k : Line) : dictGetD [] k = 0 := rfl

theorem patternOccAux_length : ∀ (rest : List Line) (seen : List (Line × ℕ)),
    (patternOccAux seen rest).length = rest.length := by
  intro rest
  induction rest with
  | nil => intro seen; rfl
  | cons n rest2 ih => intro seen; simp [patternOccAux, ih]

theorem patternOccAux_names : ∀ (rest : List Line) (seen : List (Line × ℕ)),
    ∀ p ∈ patternOccAux seen rest, p.1 ∈ rest := by
  intro rest
  induction rest with
  | nil => intro seen p hp; cases hp
  | cons n rest2 ih =>
    intro seen p hp
    simp only [patternOccAux, List.mem_cons] at hp
    rcases hp with rfl | hp
    · simp
    · exact List.mem_cons_of_mem _ (ih _ p hp)

theorem patternOccAux_rank_gt : ∀ (rest : List Line) (seen : List (Line × ℕ)),
    ∀ p ∈ patternOccAux seen rest, dictGetD seen p.1 < p.2 := by
  intro rest
  induction rest with
  | nil => intro seen p hp; cases hp
  | cons n rest2 ih =>
    intro seen p hp
    simp only [patternOccAux, List.mem_cons] at hp
    rcases hp with rfl | hp
    · simp
    · have hlt := ih (dictSet seen n (dictGetD seen n + 1)) p hp
      by_cases h : p.1 = n
      · rw [h, dictGetD_set_self] at hlt
        rw [h]
        omega
      · rw [dictGetD_set_ne _ _ _ _ h] at hlt
        exact hlt

theorem patternOccAux_pairwise : ∀ (rest : List Line) (seen : List (Line × ℕ)),
    List.Pairwise (fun p q => p.1 = q.1 → p.2 ≠ q.2) (patternOccAux seen rest) := by
  intro rest
  induction rest with
  | nil => intro seen; exact List.Pairwise.nil
  | cons n rest2 ih =>
    intro seen
    simp only [patternOccAux]
    refine List.Pairwise.cons ?_ (ih _)
    intro q hq hqn
    have := patternOccAux_rank_gt rest2 (dictSet seen n (dictGetD seen n + 1)) q hq
    rw [← hqn, dictGetD_set_self] at this
    omega

theorem patternOcc_pairwise (pattern : List Line) :
    List.Pairwise (fun p q => p.1 = q.1 → p.2 ≠ q.2) (patternOccurrences pattern) :=
  patternOccAux_pairwise pattern []

theorem patternOcc_names (pattern : List Line) :
    ∀ p ∈ patternOccurrences pattern, p.1 ∈ pattern :=
  patternOccAux_names pattern []

theorem patternOccAux_get? : ∀ (rest : List Line) (seen : List (Line × ℕ)) (acc : List Line),
    (∀ nm, dictGetD seen nm = countOcc acc nm) → ∀ i : ℕ,
    (patternOccAux seen rest).get? i
      = (rest.get? i).map (fun nm => (nm, countOcc acc nm + countOcc (rest.take (i + 1)) nm)) := by
  intro rest
  induction rest with
  | nil => intro seen acc _ i; simp [patternOccAux]
  | cons n rest2 ih =>
    intro seen acc hseen i
    cases i with
    | zero =>
      simp only [patternOccAux, List.get?_cons_zero, List.take_succ_cons, List.take_zero]
      rw [hseen n]
      simp [countOcc_singleton]
    | succ j =>
      simp only [patternOccAux, List.get?_cons_succ]
      have hseen2 : ∀ nm, dictGetD (dictSet seen n (dictGetD seen n + 1)) nm
          = countOcc (acc ++ [n]) nm := by
        intro nm
        by_cases h : nm = n
        · subst h
          rw [dictGetD_set_self, hseen nm, countOcc_append, countOcc_singleton]
          simp
        · rw [dictGetD_set_ne _ _ _ _ h, hseen nm, countOcc_append, countOcc_singleton,
            if_neg (fun hc => h hc.symm)]
          omega
      rw [ih _ (acc ++ [n]) hseen2 j]
      cases hg : rest2.get? j with
      | none => simp
      | some nm =>
        have htake : (n :: rest2).take (j + 1 + 1) = n :: rest2.take (j + 1) := rfl
        rw [htake]
        simp only [Option.map_some', Option.some.injEq, Prod.mk.injEq]
        refine ⟨trivial, ?_⟩
        rw [countOcc_append, countOcc_singleton, countOcc_cons]
        omega

/-- The slot requirements of `pattern_occurrences`: slot `i` pairs the
`i`-th pattern name with its occurrence rank, the number of times that
name appears in the pattern up to and including slot `i`. -/
theorem patternOcc_get? (pattern : List Line) (i : ℕ) :
    (patternOccurrences pattern).get? i
      = (pattern.get? i).map (fun nm => (nm, countOcc (pattern.take (i + 1)) nm)) := by
  have h := patternOccAux_get? pattern [] [] (fun nm => rfl) i
  simpa [patternOccurrences, countOcc] using h

/-- A slot whose requirement is not the pair being bound keeps its
specification value when the scanned prefix grows by one atom. -/
theorem nthOcc_snoc_stable (pre : List Atom) (a : Atom) (nm : Line) (k : ℕ)
    (h : nm = a.name → k ≠ countName pre a.name + 1) :
    nthOcc (pre ++ [a]) nm k = nthOcc pre nm k := by
  by_cases hn : a.name = nm
  · subst hn
    rcases Nat.lt_or_ge k 1 with hk | hk
    · have : k = 0 := by omega
      rw [this, nthOcc_zero, nthOcc_zero]
    · rcases Nat.lt_or_ge (countName pre a.name) k with hgt | hle
      · have hne := h rfl
        have h2 : countName (pre ++ [a]) a.name < k := by
          rw [countName_append, countName_singleton, if_pos rfl]
          omega
        rw [nthOcc_none_of_count_lt _ _ _ h2, nthOcc_none_of_count_lt _ _ _ (by omega)]
      · exact nthOcc_append_le pre [a] a.name k hk hle
  · exact nthOcc_append_ne pre a nm k hn

/-- Slots whose requirement cannot be the bound pair are unaffected by
the new atom. -/
theorem forall2_snoc_stable : ∀ (po2 : List (Line × ℕ)) (found2 : List (Option Atom))
    (pre : List Atom) (a : Atom),
    (∀ q ∈ po2, q.1 = a.name → q.2 ≠ countName pre a.name + 1) →
    List.Forall₂ (fun f p => f = nthOcc pre p.1 p.2) found2 po2 →
    List.Forall₂ (fun f p => f = nthOcc (pre ++ [a]) p.1 p.2) found2 po2 := by
  intro po2
  induction po2 with
  | nil =>
    intro found2 pre a _ hf
    cases hf
    exact List.Forall₂.nil
  | cons q po3 ih =>
    intro found2 pre a hcond hf
    cases hf with
    | cons hq hrest =>
      refine List.Forall₂.cons ?_ (ih _ pre a (fun r hr => hcond r (by simp [hr])) hrest)
      rw [hq, nthOcc_snoc_stable pre a q.1 q.2 (fun h1 => hcond q (by simp) h1)]

/-- Correctness of one binding step: after scanning atom `a` (whose name
is in the pattern), each slot holds exactly the specification value for
the grown prefix. -/
theorem bindAtom_spec : ∀ (po : List (Line × ℕ)) (found : List (Option Atom))
    (pre : List Atom) (a : Atom),
    List.Pairwise (fun p q => p.1 = q.1 → p.2 ≠ q.2) po →
    List.Forall₂ (fun f p => f = nthOcc pre p.1 p.2) found po →
    List.Forall₂ (fun f p => f = nthOcc (pre ++ [a]) p.1 p.2)
      (bindAtom po found a.name (countName pre a.name + 1) a) po := by
  intro po
  induction po with
  | nil =>
    intro found pre a _ hf
    cases hf
    exact List.Forall₂.nil
  | cons p po2 ih =>
    intro found pre a hpw hf
    cases hf with
    | cons hp hrest =>
      rename_i f found2
      cases hpw with
      | cons hph hpt =>
        by_cases hcond : p.1 = a.name ∧ p.2 = countName pre a.name + 1
        · unfold bindAtom
          rw [if_pos hcond]
          have hfnone : f = none := by
            rw [hp, hcond.1, hcond.2]
            exact nthOcc_none_of_count_lt _ _ _ (by omega)
          rw [hfnone]
          simp only [if_pos rfl]
          refine List.Forall₂.cons ?_ ?_
          · rw [hcond.1, hcond.2]
            exact (nthOcc_append_self pre a a.name rfl).symm
          · refine forall2_snoc_stable po2 found2 pre a ?_ hrest
            intro q hq hq1 hq2
            exact hph q hq (by rw [hcond.1, hq1]) (by rw [hcond.2, hq2])
        · unfold bindAtom
          rw [if_neg hcond]
          refine List.Forall₂.cons ?_ (ih found2 pre a hpt hrest)
          rw [hp]
          refine (nthOcc_snoc_stable pre a p.1 p.2 ?_).symm
          intro h1 h2
          exact hcond ⟨h1, h2⟩

/-- Invariant of the atom-scan fold of `find_pattern_in_molecule`: after
scanning `pre ++ suf` starting from a state correct for `pre`, every slot
holds the specification value for the whole scanned list. -/
theorem scan_inv (pattern : List Line) : ∀ (suf pre : List Atom)
    (found : List (Option Atom)) (counts : List (Line × ℕ)),
    (∀ nm, nm ∈ pattern → dictGetD counts nm = countName pre nm) →
    List.Forall₂ (fun f p => f = nthOcc pre p.1 p.2) found (patternOccurrences pattern) →
    List.Forall₂ (fun f p => f = nthOcc (pre ++ suf) p.1 p.2)
      (suf.foldl (scanStep pattern (patternOccurrences pattern)) (found, counts)).1
      (patternOccurrences pattern) := by
  intro suf
  induction suf with
  | nil =>
    intro pre found counts _ hf
    simpa using hf
  | cons a suf2 ih =>
    intro pre found counts hcounts hf
    simp only [List.foldl_cons]
    have hstep : ∀ st2 : List (Option Atom) × List (Line × ℕ),
        st2 = scanStep pattern (patternOccurrences pattern) (found, counts) a →
        List.Forall₂ (fun f p => f = nthOcc ((pre ++ [a]) ++ suf2) p.1 p.2)
          (suf2.foldl (scanStep pattern (patternOccurrences pattern)) st2).1
          (patternOccurrences pattern) := by
      intro st2 hst2
      by_cases hmem : a.name ∈ pattern
      · have hcur : dictGetD counts a.name + 1 = countName pre a.name + 1 := by
          rw [hcounts a.name hmem]
        rw [hst2]
        unfold scanStep
        rw [if_pos hmem]
        simp only [hcur]
        refine ih (pre ++ [a]) _ _ ?_ ?_
        · intro nm hnm
          by_cases h : nm = a.name
          · subst h
            rw [dictGetD_set_self, countName_append, countName_singleton, if_pos rfl]
          · rw [dictGetD_set_ne _ _ _ _ h, countName_append, countName_singleton,
              if_neg (fun hc => h hc.symm), hcounts nm hnm]
            omega
        · exact bindAtom_spec _ found pre a (patternOcc_pairwise pattern) hf
      · rw [hst2]
        unfold scanStep
        rw [if_neg hmem]
        refine ih (pre ++ [a]) found counts ?_ ?_
        · intro nm hnm
          rw [countName_append, countName_singleton,
            if_neg (fun hc => hmem (by rw [hc]; exact hnm)), hcounts nm hnm]
          omega
        · refine forall2_snoc_stable _ found pre a ?_ hf
          intro q hq hq1
          exact absurd (hq1 ▸ patternOcc_names pattern q hq) hmem
    have := hstep _ rfl
    simpa [List.append_assoc] using this

theorem forall2_init : ∀ (po : List (Line × ℕ)),
    List.Forall₂ (fun (f : Option Atom) p => f = nthOcc [] p.1 p.2)
      (List.replicate po.length none) po := by
  intro po
  induction po with
  | nil => exact List.Forall₂.nil
  | cons p po2 ih =>
    simp only [List.length_cons, List.replicate_succ]
    exact List.Forall₂.cons rfl ih

theorem forall2_unwrap : ∀ (po : List (Line × ℕ)) (found : List (Option Atom))
    (atoms : List Atom),
    List.Forall₂ (fun f p => f = nthOcc atoms p.1 p.2) found po →
    found.all Option.isSome = true →
    List.Forall₂ (fun x p => some x = nthOcc atoms p.1 p.2) (found.map unwrapAtom) po := by
  intro po
  induction po with
  | nil =>
    intro found atoms hf _
    cases hf
    exact List.Forall₂.nil
  | cons p po2 ih =>
    intro found atoms hf hall
    cases hf with
    | cons hr hrest =>
      rename_i f found2
      simp only [List.all_cons, Bool.and_eq_true] at hall
      cases f with
      | none => simp at hall
      | some a =>
        simp only [List.map_cons]
        exact List.Forall₂.cons (by rw [← hr]; rfl) (ih found2 atoms hrest hall.2)

/-- The result of a successful match, slot by slot: slot `i` holds the
atom at the occurrence rank that `pattern_occurrences` assigned it. -/
theorem findPattern_spec (atoms : List Atom) (pattern : List Line) (res : List Atom)
    (h : findPatternInMolecule atoms pattern = some res) :
    List.Forall₂ (fun x p => some x = nthOcc atoms p.1 p.2) res
      (patternOccurrences pattern) := by
  unfold findPatternInMolecule at h
  by_cases hall : ((atoms.foldl (scanStep pattern (patternOccurrences pattern))
      (List.replicate pattern.length none, [])).1.all Option.isSome) = true
  · rw [if_pos hall] at h
    have hrep : List.replicate pattern.length (none : Option Atom)
        = List.replicate (patternOccurrences pattern).length none := by
      rw [show (patternOccurrences pattern).length = pattern.length from
        patternOccAux_length pattern []]
    have hinv := scan_inv pattern atoms [] (List.replicate pattern.length none) []
      (fun nm _ => rfl) (by rw [hrep]; exact forall2_init _)
    simp only [List.nil_append] at hinv
    injection h with h2
    rw [← h2]
    exact forall2_unwrap _ _ _ hinv hall
  · rw [if_neg hall] at h
    cases h

theorem forall2_get?_rel {α β : Type} {R : α → β → Prop} : ∀ {l1 : List α} {l2 : List β},
    List.Forall₂ R l1 l2 → ∀ (i : ℕ) (x : α) (y : β),
    l1.get? i = some x → l2.get? i = some y → R x y := by
  intro l1 l2 hf
  induction hf with
  | nil => intro i x y h1 _; cases h1
  | cons hr hrest ih =>
    intro i x y h1 h2
    cases i with
    | zero =>
      simp only [List.get?_cons_zero, Option.some.injEq] at h1 h2
      rw [← h1, ← h2]
      exact hr
    | succ j => exact ih j x y (by simpa using h1) (by simpa using h2)

/-- C2.  The matcher scans the molecule's atoms in file order with a
per-name running occurrence counter and binds each slot to the atom whose
running count equals that slot's required occurrence rank: a successful
result relates, slot by slot, to the `nthOcc` specification at the ranks
computed by `pattern_occurrences` (whose slot `i` carries the `i`-th
pattern name and its occurrence rank within the pattern prefix).  When
the molecule's atoms have pairwise distinct line indices, no two slots
bind the same atom.  With atoms `[C1(a), H2, C1(b)]` and pattern
`[C1, C1]`, slot 0 binds `C1(a)` and slot 1 binds `C1(b)`. -/
theorem matcher_binds_by_occurrence_rank :
    (∀ (atoms : List Atom) (pattern : List Line) (res : List Atom),
      findPatternInMolecule atoms pattern = some res →
      List.Forall₂ (fun x p => some x = nthOcc atoms p.1 p.2) res (patternOccurrences pattern)
      ∧ (List.Pairwise (fun x y : Atom => x.line_index ≠ y.line_index) atoms →
          List.Pairwise (fun x y : Atom => x ≠ y) res))
    ∧ (∀ (pattern : List Line) (i : ℕ),
        (patternOccurrences pattern).get? i
          = (pattern.get? i).map (fun nm => (nm, countOcc (pattern.take (i + 1)) nm)))
    ∧ findPatternInMolecule
        [⟨"C1".data, 1, 0, 0, 0⟩, ⟨"H2".data, 2, 0, 0, 1⟩, ⟨"C1".data, 3, 0, 0, 2⟩]
        ["C1".data, "C1".data]
      = some [⟨"C1".data, 1, 0, 0, 0⟩, ⟨"C1".data, 3, 0, 0, 2⟩] := by
  refine ⟨?_, patternOcc_get?, by decide⟩
  intro atoms pattern res h
  have hforall := findPattern_spec atoms pattern res h
  refine ⟨hforall, ?_⟩
  intro hpw
  have hlen := List.Forall₂.length_eq hforall
  rw [List.pairwise_iff_get]
  intro i j hij
  have hi2 : (i : ℕ) < (patternOccurrences pattern).length := by
    rw [← hlen]
    exact i.2
  have hj2 : (j : ℕ) < (patternOccurrences pattern).length := by
    rw [← hlen]
    exact j.2
  have hRi := forall2_get?_rel hforall i (res.get i)
    ((patternOccurrences pattern).get ⟨i, hi2⟩) (List.get?_eq_get i.2) (List.get?_eq_get hi2)
  have hRj := forall2_get?_rel hforall j (res.get j)
    ((patternOccurrences pattern).get ⟨j, hj2⟩) (List.get?_eq_get j.2) (List.get?_eq_get hj2)
  have hpo := (List.pairwise_iff_get.mp (patternOcc_pairwise pattern))
    ⟨i, hi2⟩ ⟨j, hj2⟩ (Fin.mk_lt_mk.mpr hij)
  by_cases hn : ((patternOccurrences pattern).get ⟨i, hi2⟩).1
      = ((patternOccurrences pattern).get ⟨j, hj2⟩).1
  · refine nthOcc_inj atoms ((patternOccurrences pattern).get ⟨i, hi2⟩).1
      ((patternOccurrences pattern).get ⟨i, hi2⟩).2
      ((patternOccurrences pattern).get ⟨j, hj2⟩).2 _ _ hpw hRi.symm ?_ (hpo hn)
    rw [hn]
    exact hRj.symm
  · intro heq
    have h1 := nthOcc_name atoms _ _ _ hRi.symm
    have h2 := nthOcc_name atoms _ _ _ hRj.symm
    rw [heq] at h1
    exact hn (h1.symm.trans h2)

/-- Witness for C2 at the spec's repeated-name example. -/
theorem matcher_binds_by_occurrence_rank_witness :
    List.Forall₂ (fun x p => some x = nthOcc
        [⟨"C1".data, 1, 0, 0, 0⟩, ⟨"H2".data, 2, 0, 0, 1⟩, ⟨"C1".data, 3, 0, 0, 2⟩] p.1 p.2)
      [⟨"C1".data, 1, 0, 0, 0⟩, ⟨"C1".data, 3, 0, 0, 2⟩]
      (patternOccurrences ["C1".data, "C1".data])
    ∧ List.Pairwise (fun x y : Atom => x ≠ y)
      [(⟨"C1".data, 1, 0, 0, 0⟩ : Atom), ⟨"C1".data, 3, 0, 0, 2⟩] := by
  have h := matcher_binds_by_occurrence_rank.1
    [⟨"C1".data, 1, 0, 0, 0⟩, ⟨"H2".data, 2, 0, 0, 1⟩, ⟨"C1".data, 3, 0, 0, 2⟩]
    ["C1".data, "C1".data]
    [⟨"C1".data, 1, 0, 0, 0⟩, ⟨"C1".data, 3, 0, 0, 2⟩] (by decide)
  exact ⟨h.1, h.2 (by decide)⟩

/-- C4.  If some slot of `pattern_occurrences` requires more occurrences
of its name than the molecule contains, the match fails as a whole:
`find_pattern_in_molecule` returns `None`, the definition synthesizes and
inserts nothing, and no diagnostic is emitted; concretely, pattern
`[C1, H2, C1]` on a two-atom molecule `[C1, H2]` fails and the molecule's
lines pass through unchanged. -/
theorem match_fails_when_occurrence_missing :
    (∀ (atoms : List Atom) (pattern : List Line),
      (∃ p ∈ patternOccurrences pattern, countName atoms p.1 < p.2) →
      findPatternInMolecule atoms pattern = none)
    ∧ (∀ (mol_lines : List Line) (atoms : List Atom) (defn : MsiteDef),
        findPatternInMolecule atoms defn.atom_names = none →
        synthesizeForDef mol_lines atoms defn = .ok none)
    ∧ (∀ (mol_lines : List Line) (defs : List MsiteDef) (r : List OutLine × List Line),
        processMolecule mol_lines defs = .ok r → r.2 = [])
    ∧ findPatternInMolecule [⟨"C1".data, 1, 0, 0, 0⟩, ⟨"H2".data, 2, 0, 0, 1⟩]
        ["C1".data, "H2".data, "C1".data] = none
    ∧ processMolecule
        ["C1 1.0 0.0 0.0 0.0 0.0 0.0 1.0 7".data, "H2 2.0 0.0 0.0 0.0 0.0 0.0 1.0 7".data]
        [⟨"DMA".data, ["C1".data, "H2".data, "C1".data], "EM".data, [1/5, 1/5, 1/5]⟩]
      = .ok ([.orig "C1 1.0 0.0 0.0 0.0 0.0 0.0 1.0 7".data,
          .orig "H2 2.0 0.0 0.0 0.0 0.0 0.0 1.0 7".data], ([] : List Line)) := by
  refine ⟨?_, ?_, ?_, by decide, by decide⟩
  · intro atoms pattern hex
    obtain ⟨p, hp, hcount⟩ := hex
    unfold findPatternInMolecule
    have hrep : List.replicate pattern.length (none : Option Atom)
        = List.replicate (patternOccurrences pattern).length none := by
      rw [show (patternOccurrences pattern).length = pattern.length from
        patternOccAux_length pattern []]
    have hinv := scan_inv pattern atoms [] (List.replicate pattern.length none) []
      (fun nm _ => rfl) (by rw [hrep]; exact forall2_init _)
    simp only [List.nil_append] at hinv
    obtain ⟨i, hi⟩ := List.get?_of_mem hp
    have hlen := List.Forall₂.length_eq hinv
    have hilt : i < (patternOccurrences pattern).length := by
      rcases List.get?_eq_some.mp hi with ⟨hh, _⟩
      exact hh
    have hilt2 : i < ((atoms.foldl (scanStep pattern (patternOccurrences pattern))
        (List.replicate pattern.length none, [])).1).length := by
      rw [hlen]
      exact hilt
    have hfi := forall2_get?_rel hinv i _ p (List.get?_eq_get hilt2) hi
    have hnone : ((atoms.foldl (scanStep pattern (patternOccurrences pattern))
        (List.replicate pattern.length none, [])).1).get ⟨i, hilt2⟩ = none := by
      rw [hfi]
      exact nthOcc_none_of_count_lt _ _ _ hcount
    cases hb : ((atoms.foldl (scanStep pattern (patternOccurrences pattern))
        (List.replicate pattern.length none, [])).1).all Option.isSome with
    | false => rw [if_neg (by simp [hb])]
    | true =>
      have hmem := List.all_eq_true.mp hb _ (List.get_mem _ i hilt2)
      rw [hnone] at hmem
      simp at hmem
  · intro mol_lines atoms defn h
    simp [synthesizeForDef, h]
  · intro mol_lines defs r h
    exact processMolecule_no_diagnostics _ _ _ h

/-- Witness for C4 at the spec's insufficient-occurrences example (the
second `C1` requires occurrence rank 2, but only one `C1` exists). -/
theorem match_fails_when_occurrence_missing_witness :
    findPatternInMolecule [⟨"C1".data, 5, 5, 5, 0⟩, ⟨"H2".data, 2, 0, 0, 1⟩]
      ["C1".data, "H2".data, "C1".data] = none :=
  match_fails_when_occurrence_missing.1 _ _ ⟨("C1".data, 2), by decide, by decide⟩

/-! ## Insertion placement (C1) -/

/-- Simultaneous splice of the insertion list into the original lines:
each record goes to its original gap, records sharing a gap staying in
definition order.  This is what "apply all insertions against the
original indices" means; the theorems below show when the code's
reversed-order `insert` loop computes it. -/
def spliceNondecr : List OutLine → List (ℕ × MsiteRecord) → List OutLine
  | base, [] => base
  | base, (i, r) :: rest =>
    base.take i ++ OutLine.msite r ::
      spliceNondecr (base.drop i) (rest.map (fun p => (p.1 - i, p.2)))
termination_by _ ins => ins.length
decreasing_by
  simp only [List.length_map, List.length_cons]
  omega

theorem spliceNondecr_nil (base : List OutLine) : spliceNondecr base [] = base := by
  simp [spliceNondecr]

theorem spliceNondecr_cons (base : List OutLine) (i : ℕ) (r : MsiteRecord)
    (rest : List (ℕ × MsiteRecord)) :
    spliceNondecr base ((i, r) :: rest)
      = base.take i ++ OutLine.msite r ::
          spliceNondecr (base.drop i) (rest.map (fun p => (p.1 - i, p.2))) := by
  simp [spliceNondecr]

theorem spliceNondecr_shift (base : List OutLine) (i : ℕ) (ins : List (ℕ × MsiteRecord))
    (hle : i ≤ base.length) (hall : ∀ p ∈ ins, i ≤ p.1) :
    spliceNondecr base ins
      = base.take i ++ spliceNondecr (base.drop i) (ins.map (fun p => (p.1 - i, p.2))) := by
  cases ins with
  | nil =>
    simp only [List.map_nil, spliceNondecr_nil]
    rw [List.take_append_drop]
  | cons q rest =>
    obtain ⟨qi, qr⟩ := q
    have hiq : i ≤ qi := hall (qi, qr) (by simp)
    rw [spliceNondecr_cons]
    simp only [List.map_cons]
    rw [spliceNondecr_cons]
    have h1 : base.take i ++ (base.drop i).take (qi - i) = base.take qi := by
      rw [← List.take_add]
      congr 1
      omega
    have h2 : (base.drop i).drop (qi - i) = base.drop qi := by
      rw [List.drop_drop]
      congr 1
      omega
    have h3 : (rest.map (fun p => (p.1 - i, p.2))).map (fun p => (p.1 - (qi - i), p.2))
        = rest.map (fun p => (p.1 - qi, p.2)) := by
      rw [List.map_map]
      refine List.map_congr_left ?_
      intro p _
      simp only [Function.comp_apply]
      congr 1
      omega
    rw [h2, h3, ← h1]
    simp [List.append_assoc]

theorem foldr_pyInsert_eq_splice : ∀ (ins : List (ℕ × MsiteRecord)) (base : List OutLine),
    (∀ p ∈ ins, p.1 ≤ base.length) →
    List.Pairwise (fun p q => p.1 ≤ q.1) ins →
    List.foldr (fun p acc => pyInsert acc p.1 (OutLine.msite p.2)) base ins
      = spliceNondecr base ins := by
  intro ins
  induction ins with
  | nil => intro base _ _; rw [spliceNondecr_nil]; rfl
  | cons q rest ih =>
    intro base hb hpw
    obtain ⟨qi, qr⟩ := q
    cases hpw with
    | cons hq hrest =>
      simp only [List.foldr_cons]
      rw [ih base (fun p hp => hb p (by simp [hp])) hrest]
      rw [spliceNondecr_shift base qi rest (hb (qi, qr) (by simp)) (fun p hp => hq p hp)]
      unfold pyInsert
      have htl : (base.take qi).length = qi := by
        rw [List.length_take]
        have := hb (qi, qr) (by simp)
        simp at this ⊢
        omega
      rw [List.take_left' htl, List.drop_left' htl, spliceNondecr_cons]

theorem applyInsertions_eq_foldr (base : List OutLine) (ins : List (ℕ × MsiteRecord)) :
    applyInsertions base ins
      = List.foldr (fun p acc => pyInsert acc p.1 (OutLine.msite p.2)) base ins :=
  List.foldl_reverse ins (fun acc p => pyInsert acc p.1 (OutLine.msite p.2)) base

theorem pairwise_shift_lt (i : ℕ) : ∀ (rest : List (ℕ × MsiteRecord)),
    (∀ q ∈ rest, i < q.1) → List.Pairwise (fun p q => p.1 < q.1) rest →
    List.Pairwise (fun p q : ℕ × MsiteRecord => p.1 < q.1)
      (rest.map (fun p => (p.1 - i, p.2))) := by
  intro rest
  induction rest with
  | nil => intro _ _; exact List.Pairwise.nil
  | cons q rest2 ih =>
    intro hall hpw
    cases hpw with
    | cons hq hrest =>
      simp only [List.map_cons]
      refine List.Pairwise.cons ?_ (ih (fun r hr => hall r (by simp [hr])) hrest)
      intro r hr
      rcases List.mem_map.mp hr with ⟨s, hs, rfl⟩
      have h1 := hq s hs
      have h2 := hall q (by simp)
      simp only
      omega

/-- Each record of a strictly position-sorted insertion list ends up
immediately after the base element at its original index minus one. -/
theorem spliceNondecr_adjacency : ∀ (n : ℕ) (ins : List (ℕ × MsiteRecord)) (base : List OutLine),
    ins.length ≤ n →
    (∀ p ∈ ins, 1 ≤ p.1 ∧ p.1 ≤ base.length) →
    List.Pairwise (fun p q => p.1 < q.1) ins →
    ∀ (j : ℕ) (p : ℕ × MsiteRecord), ins.get? j = some p →
      ∃ (u v : List OutLine) (b : OutLine),
        base.get? (p.1 - 1) = some b ∧
        spliceNondecr base ins = u ++ b :: OutLine.msite p.2 :: v := by
  intro n
  induction n with
  | zero =>
    intro ins base hn _ _ j p hp
    have h0 : ins = [] := List.length_eq_zero.mp (by omega)
    rw [h0] at hp
    cases hp
  | succ m ih =>
    intro ins base hn hb hpw j p hp
    cases ins with
    | nil => cases hp
    | cons q rest =>
      obtain ⟨qi, qr⟩ := q
      cases hpw with
      | cons hq hrest =>
        have hqb := hb (qi, qr) (by simp)
        cases j with
        | zero =>
          simp only [List.get?_cons_zero, Option.some.injEq] at hp
          subst hp
          have hlt : qi - 1 < base.length := by omega
          refine ⟨base.take (qi - 1), spliceNondecr (base.drop qi)
              (rest.map (fun p => (p.1 - qi, p.2))), base.get ⟨qi - 1, hlt⟩,
            List.get?_eq_get hlt, ?_⟩
          rw [spliceNondecr_cons]
          have htake : base.take qi = base.take (qi - 1) ++ [base.get ⟨qi - 1, hlt⟩] := by
            nth_rewrite 1 [show qi = (qi - 1) + 1 by omega]
            rw [List.take_succ, List.getElem?_eq_getElem hlt]
            rfl
          rw [htake, List.append_assoc]
          rfl
        | succ j2 =>
          simp only [List.get?_cons_succ] at hp
          have hpmem : p ∈ rest := List.get?_mem hp
          have hplt : qi < p.1 := hq p hpmem
          have hget2 : (rest.map (fun s => (s.1 - qi, s.2))).get? j2
              = some (p.1 - qi, p.2) := by
            rw [List.get?_map, hp]
            rfl
          have hbounds : ∀ s ∈ rest.map (fun s => (s.1 - qi, s.2)),
              1 ≤ s.1 ∧ s.1 ≤ (base.drop qi).length := by
            intro s hs
            rcases List.mem_map.mp hs with ⟨t, ht, rfl⟩
            have h1 := hq t ht
            have h2 := (hb t (by simp [ht])).2
            simp only [List.length_drop]
            omega
          have hlen2 : (rest.map (fun s => (s.1 - qi, s.2))).length ≤ m := by
            simp only [List.length_map]
            simp only [List.length_cons] at hn
            omega
          obtain ⟨u2, v2, b2, hget3, heq2⟩ := ih (rest.map (fun s => (s.1 - qi, s.2)))
            (base.drop qi) hlen2 hbounds
            (pairwise_shift_lt qi rest (fun r hr => hq r hr) hrest) j2 _ hget2
          rw [List.get?_drop] at hget3
          have harith : qi + (p.1 - qi - 1) = p.1 - 1 := by omega
          rw [harith] at hget3
          refine ⟨base.take qi ++ OutLine.msite qr :: u2, v2, b2, hget3, ?_⟩
          rw [spliceNondecr_cons, heq2]
          simp [List.append_assoc]

/-- Provenance of an insertion point: it is one past the line index of
the last bound pattern atom, an index into the group's original line
list. -/
theorem synthesizeForDef_idx (mol_lines : List Line) (atoms : List Atom) (defn : MsiteDef)
    (idx : ℕ) (rec : MsiteRecord)
    (h : synthesizeForDef mol_lines atoms defn = .ok (some (idx, rec))) :
    ∃ (pas : List Atom) (hne : pas ≠ []),
      findPatternInMolecule atoms defn.atom_names = some pas
      ∧ idx = (pas.getLast hne).line_index + 1 := by
  cases hm : findPatternInMolecule atoms defn.atom_names with
  | none =>
    simp only [synthesizeForDef, hm] at h
    simp at h
  | some pas =>
    simp only [synthesizeForDef, hm] at h
    by_cases hne : pas = []
    · rw [dif_pos hne] at h
      cases h
    · rw [dif_neg hne] at h
      refine ⟨pas, hne, rfl, ?_⟩
      by_cases hlen : (splitWS (mol_lines.getD (pas.getLast hne).line_index [])).length ≥ 8
      · rw [if_pos hlen] at h
        cases hg : (splitWS (mol_lines.getD (pas.getLast hne).line_index [])).get? 8 with
        | none => rw [hg] at h; cases h
        | some molid =>
          rw [hg] at h
          simp only [Except.ok.injEq, Option.some.injEq, Prod.mk.injEq] at h
          exact h.1.symm
      · rw [if_neg hlen] at h
        simp only [Except.ok.injEq, Option.some.injEq, Prod.mk.injEq] at h
        exact h.1.symm

theorem parseAtoms_line_index_lt (mol_lines : List Line) :
    ∀ a ∈ parseAtoms mol_lines, a.line_index < mol_lines.length := by
  intro a ha
  unfold parseAtoms at ha
  rcases List.mem_map.mp ha with ⟨p, hp, rfl⟩
  have hp2 := List.mem_filter.mp hp
  have := List.fst_lt_of_mem_enum hp2.1
  simpa [mkAtom] using this

theorem forall2_left_mem {α β : Type} {R : α → β → Prop} : ∀ {l1 : List α} {l2 : List β},
    List.Forall₂ R l1 l2 → ∀ x ∈ l1, ∃ y ∈ l2, R x y := by
  intro l1 l2 hf
  induction hf with
  | nil => intro x hx; cases hx
  | cons hr hrest ih =>
    intro x hx
    rcases List.mem_cons.mp hx with rfl | hx2
    · exact ⟨_, by simp, hr⟩
    · rcases ih x hx2 with ⟨y, hy, hxy⟩
      exact ⟨y, by simp [hy], hxy⟩

theorem findPattern_mem (atoms : List Atom) (pattern : List Line) (res : List Atom)
    (h : findPatternInMolecule atoms pattern = some res) : ∀ a ∈ res, a ∈ atoms := by
  intro a ha
  obtain ⟨p, _, hrel⟩ := forall2_left_mem (findPattern_spec atoms pattern res h) a ha
  exact nthOcc_mem _ _ _ _ hrel.symm

theorem computeInsertions_mem (mol_lines : List Line) (atoms : List Atom) :
    ∀ (defs : List MsiteDef) (ins : List (ℕ × MsiteRecord)),
    computeInsertions mol_lines atoms defs = .ok ins →
    ∀ p ∈ ins, ∃ defn ∈ defs, synthesizeForDef mol_lines atoms defn = .ok (some p) := by
  intro defs
  induction defs with
  | nil =>
    intro ins h p hp
    injection h with h2
    rw [← h2] at hp
    cases hp
  | cons defn defs2 ih =>
    intro ins h p hp
    unfold computeInsertions at h
    cases hs : synthesizeForDef mol_lines atoms defn with
    | error e => rw [hs] at h; cases h
    | ok o =>
      cases o with
      | none =>
        rw [hs] at h
        rcases ih ins h p hp with ⟨d2, hd2, hsd⟩
        exact ⟨d2, by simp [hd2], hsd⟩
      | some q =>
        rw [hs] at h
        cases hc : computeInsertions mol_lines atoms defs2 with
        | error e => rw [hc] at h; cases h
        | ok rest =>
          rw [hc] at h
          injection h with h2
          rw [← h2] at hp
          rcases List.mem_cons.mp hp with rfl | hp2
          · exact ⟨defn, by simp, hs⟩
          · rcases ih rest hc p hp2 with ⟨d2, hd2, hsd⟩
            exact ⟨d2, by simp [hd2], hsd⟩

theorem computeInsertions_bounds (mol_lines : List Line) (defs : List MsiteDef)
    (ins : List (ℕ × MsiteRecord))
    (h : computeInsertions mol_lines (parseAtoms mol_lines) defs = .ok ins) :
    ∀ p ∈ ins, 1 ≤ p.1 ∧ p.1 ≤ mol_lines.length := by
  intro p hp
  obtain ⟨defn, _, hs⟩ :=
    computeInsertions_mem mol_lines (parseAtoms mol_lines) defs ins h p hp
  obtain ⟨pas, hne, hm, hidx⟩ := synthesizeForDef_idx mol_lines _ defn p.1 p.2 hs
  have hmem : pas.getLast hne ∈ pas := List.getLast_mem hne
  have := parseAtoms_line_index_lt mol_lines _ (findPattern_mem _ _ _ hm _ hmem)
  omega

theorem processMolecule_out (mol_lines : List Line) (defs : List MsiteDef)
    (ins : List (ℕ × MsiteRecord)) (out : List OutLine) (dg : List Line)
    (hcomp : computeInsertions mol_lines (parseAtoms mol_lines) defs = .ok ins)
    (hproc : processMolecule mol_lines defs = .ok (out, dg)) :
    out = applyInsertions (mol_lines.map OutLine.orig) ins := by
  unfold processMolecule at hproc
  rw [hcomp] at hproc
  simp only [Except.ok.injEq, Prod.mk.injEq] at hproc
  exact hproc.1.symm

/-- A two-atom molecule group (full 9-token lines, molecule id `7`). -/
def twoAtomMol : List Line :=
  ["A1 0.0 0.0 0.0 0.0 0.0 0.0 1.0 7".data,
   "B1 1.0 0.0 0.0 0.0 0.0 0.0 1.0 7".data]

/-- A definition matching the second atom (insertion point 2). -/
def defOnB1 : MsiteDef := ⟨"X".data, ["B1".data], "M1".data, [1]⟩

/-- A definition matching the first atom (insertion point 1). -/
def defOnA1 : MsiteDef := ⟨"X".data, ["A1".data], "M2".data, [1]⟩

/-- C1 (counterexample).  With definitions in the order
`[defOnB1, defOnA1]` the insertion points are `[2, 1]` — decreasing in
definition order.  The code's reversed loop then inserts at index 1
first, shifting the line originally at index 1, and the record of
`defOnB1` (site `M1`) lands *before* its last bound pattern atom's line
`B1` instead of immediately after it: insertions are applied in reverse
definition order, not in descending index order. -/
theorem insertion_not_descending_index_order :
    processMolecule twoAtomMol [defOnB1, defOnA1]
      = .ok ([.orig (twoAtomMol.getD 0 []),
          .msite ⟨"M2".data, 0, 0, 0, some ⟨0, 0, 0, "1.0".data, "7".data⟩⟩,
          .msite ⟨"M1".data, 1, 0, 0, some ⟨0, 0, 0, "1.0".data, "7".data⟩⟩,
          .orig (twoAtomMol.getD 1 [])], ([] : List Line))
    ∧ ([.orig (twoAtomMol.getD 0 []),
        .msite ⟨"M2".data, 0, 0, 0, some ⟨0, 0, 0, "1.0".data, "7".data⟩⟩,
        .msite ⟨"M1".data, 1, 0, 0, some ⟨0, 0, 0, "1.0".data, "7".data⟩⟩,
        .orig (twoAtomMol.getD 1 [])] : List OutLine)
      ≠ [.orig (twoAtomMol.getD 0 []),
         .msite ⟨"M2".data, 0, 0, 0, some ⟨0, 0, 0, "1.0".data, "7".data⟩⟩,
         .orig (twoAtomMol.getD 1 []),
         .msite ⟨"M1".data, 1, 0, 0, some ⟨0, 0, 0, "1.0".data, "7".data⟩⟩] := by
  exact ⟨by decide, by decide⟩

/-- C1 (amended).  Insertion points are computed against the group's
original line indices (one past the last bound pattern atom's line), and
the insertions are applied in *reverse definition order*.  When the
insertion indices are strictly increasing in definition order — e.g. for
definitions matching disjoint atom sets in increasing position — this
coincides with descending-index application, no insertion shifts the
position used by another, and every synthesized record lands immediately
after the line of its last bound pattern atom. -/
theorem insertion_placement_reverse_definition_order :
    (∀ (mol_lines : List Line) (atoms : List Atom) (defn : MsiteDef)
       (idx : ℕ) (rec : MsiteRecord),
       synthesizeForDef mol_lines atoms defn = .ok (some (idx, rec)) →
       ∃ (pas : List Atom) (hne : pas ≠ []),
         findPatternInMolecule atoms defn.atom_names = some pas
         ∧ idx = (pas.getLast hne).line_index + 1)
    ∧ (∀ (mol_lines : List Line) (defs : List MsiteDef) (ins : List (ℕ × MsiteRecord))
         (out : List OutLine) (dg : List Line),
         computeInsertions mol_lines (parseAtoms mol_lines) defs = .ok ins →
         processMolecule mol_lines defs = .ok (out, dg) →
         List.Pairwise (fun p q => p.1 < q.1) ins →
         ∀ (j : ℕ) (p : ℕ × MsiteRecord), ins.get? j = some p →
           ∃ (u v : List OutLine) (L : Line),
             mol_lines.get? (p.1 - 1) = some L
             ∧ out = u ++ OutLine.orig L :: OutLine.msite p.2 :: v) := by
  refine ⟨synthesizeForDef_idx, ?_⟩
  intro mol_lines defs ins out dg hcomp hproc hpw j p hp
  have hbounds := computeInsertions_bounds mol_lines defs ins hcomp
  have hout := processMolecule_out mol_lines defs ins out dg hcomp hproc
  have heq : applyInsertions (mol_lines.map OutLine.orig) ins
      = spliceNondecr (mol_lines.map OutLine.orig) ins := by
    rw [applyInsertions_eq_foldr]
    refine foldr_pyInsert_eq_splice ins _ ?_ (hpw.imp (fun h => le_of_lt h))
    intro q hq
    have := hbounds q hq
    simp only [List.length_map]
    exact this.2
  have hbounds2 : ∀ q ∈ ins, 1 ≤ q.1 ∧ q.1 ≤ (mol_lines.map OutLine.orig).length := by
    intro q hq
    have := hbounds q hq
    simpa using this
  obtain ⟨u, v, b, hget, hsp⟩ := spliceNondecr_adjacency ins.length ins
    (mol_lines.map OutLine.orig) le_rfl hbounds2 hpw j p hp
  rw [List.get?_map] at hget
  cases hL : mol_lines.get? (p.1 - 1) with
  | none => rw [hL] at hget; cases hget
  | some L =>
    rw [hL] at hget
    injection hget with hb2
    refine ⟨u, v, L, rfl, ?_⟩
    rw [hout, heq, hsp, ← hb2]

/-- Witness for C1's amended theorem: with the definitions in increasing
position order, the record of `defOnB1` sits immediately after its last
bound pattern atom's line. -/
theorem insertion_placement_reverse_definition_order_witness :
    ∃ (u v : List OutLine) (L : Line),
      twoAtomMol.get? 1 = some L
      ∧ ([.orig (twoAtomMol.getD 0 []),
          .msite ⟨"M2".data, 0, 0, 0, some ⟨0, 0, 0, "1.0".data, "7".data⟩⟩,
          .orig (twoAtomMol.getD 1 []),
          .msite ⟨"M1".data, 1, 0, 0, some ⟨0, 0, 0, "1.0".data, "7".data⟩⟩] : List OutLine)
        = u ++ OutLine.orig L ::
            OutLine.msite (⟨"M1".data, 1, 0, 0,
              some ⟨0, 0, 0, "1.0".data, "7".data⟩⟩ : MsiteRecord) :: v :=
  insertion_placement_reverse_definition_order.2 twoAtomMol [defOnA1, defOnB1]
    [(1, ⟨"M2".data, 0, 0, 0, some ⟨0, 0, 0, "1.0".data, "7".data⟩⟩),
     (2, ⟨"M1".data, 1, 0, 0, some ⟨0, 0, 0, "1.0".data, "7".data⟩⟩)]
    [.orig (twoAtomMol.getD 0 []),
     .msite ⟨"M2".data, 0, 0, 0, some ⟨0, 0, 0, "1.0".data, "7".data⟩⟩,
     .orig (twoAtomMol.getD 1 []),
     .msite ⟨"M1".data, 1, 0, 0, some ⟨0, 0, 0, "1.0".data, "7".data⟩⟩]
    [] (by decide) (by decide) (by decide) 1
    (2, ⟨"M1".data, 1, 0, 0, some ⟨0, 0, 0, "1.0".data, "7".data⟩⟩) (by decide)
